import Mathlib

/-!
Verification of the filtergraph description parser of ffgen
(src/graph_parser.rs), as a shallow embedding.

The input buffer is a `List Char` (the Rust code scans the UTF-8 bytes of a
`&str` with a cursor; we model the not-yet-consumed remainder of the buffer).
The external filter registry (libavfilter, reached through FFI:
`avfilter_get_by_name`, `avfilter_graph_alloc_filter`, `avfilter_init_str`
and the resulting pad counts) is abstracted as a `Registry` value, following
the collaborator interface of the specification.  Rust `Err(())` results are
refined into one constructor per distinct error site (`ErrKind`), and Rust
panics (`unwrap`, out-of-bounds indexing) are modelled by `PanicKind`
outcomes so that aborting is distinguished from returning an error.

Not modelled: out-of-memory failures of the FFI allocation calls, and the
CString::new(..).unwrap() aborts on interior NUL bytes (create_filter calls
CString::new on the filter and instance names); on NUL-free inputs these
cannot fire.  The recursions are given fuel bounded by the buffer length;
avfilter_graph_parse2_ne_fuelOut proves the bound is never reached, so the
fuelOut constructor is an unreachable artifact of the embedding.
-/

/-- Parse-time global state (struct FilterGraph): the optional raw
`scale_sws_opts` text taken from a leading directive. -/
structure FilterGraphState where
  scale_sws_opts : Option (List Char)
deriving DecidableEq, Repr

/-- One created filter instance (struct FilterContext). -/
structure FilterContext where
  index : Nat
  filt_name : List Char
  inst_name : List Char
  args : List Char
  nb_inputs : Nat
  nb_outputs : Nat
deriving DecidableEq, Repr

/-- A directed link between two filter pads (struct FilterLink). -/
structure FilterLink where
  from_filter : Nat
  from_pad_idx : Nat
  to_filter : Nat
  to_pad_idx : Nat
deriving DecidableEq, Repr

/-- A pad reference (struct FilterInOut): optional label, pad index, and the
owning filter index (`none` while the reference is not yet bound). -/
structure FilterInOut where
  name : Option (List Char)
  pad_idx : Nat
  filter_ctx : Option Nat
deriving DecidableEq, Repr

/-- Distinct `Err(())` sites of the parser, one constructor per `error!` +
`return Err(())` site in graph_parser.rs. -/
inductive ErrKind
  /-- parse_sws_flags: sws_flags not terminated with a semicolon. -/
  | unterminatedDirective
  /-- parse_inputs / parse_outputs: a bracket label with no closing bracket. -/
  | unclosedBracket
  /-- create_filter: avfilter_get_by_name returned null. -/
  | unknownFilter
  /-- link_filter_inouts: leftover current inputs after all pads are wired. -/
  | tooManyInputs
  /-- parse_outputs: no current output pad left for a trailing label. -/
  | tooFewOutputs
  /-- top level: next byte after a filter spec is none of comma, semicolon,
  bracket, end. -/
  | unexpectedTrailingText
deriving DecidableEq, Repr

/-- Rust abort sites of avfilter_graph_parse2 (unwrap / index panics). -/
inductive PanicKind
  /-- line 466: parse_sws_flags(..).unwrap() on an Err value. -/
  | swsUnwrap
  /-- parse_outputs: open_input.filter_ctx.unwrap() on None. -/
  | openInputCtxNone
  /-- link serialization: filters_code_name[..] out of bounds. -/
  | serializeLinks
  /-- input serialization: filter_ctx.unwrap() or code-name index panic. -/
  | serializeInputs
  /-- output serialization: filter_ctx.unwrap() or code-name index panic. -/
  | serializeOutputs
  /-- inputs_code_name[0] with no open inputs. -/
  | emptyInputsIndex
  /-- outputs_code_name[0] with no open outputs. -/
  | emptyOutputsIndex
deriving DecidableEq, Repr

/-- Failure of an inner parsing step: an error returned to the caller, a
panic, or exhaustion of the (proven sufficient) recursion fuel. -/
inductive Fail
  | err (e : ErrKind)
  | panic (p : PanicKind)
  | fuelOut
deriving DecidableEq, Repr

/-- The parse result assembled by avfilter_graph_parse2 (the Rust function
prints it as C code and returns Ok(()); we return the data it serializes). -/
structure ParsedGraph where
  filters : List FilterContext
  links : List FilterLink
  open_inputs : List FilterInOut
  open_outputs : List FilterInOut
deriving DecidableEq, Repr

/-- Overall outcome of avfilter_graph_parse2. -/
inductive ParseOutcome
  | ok (r : ParsedGraph)
  | err (e : ErrKind)
  | panic (p : PanicKind)
  | fuelOut
deriving DecidableEq, Repr

/-- The abstract filter registry (libavfilter): name lookup, the
avfilter_init_str verdict, and the pad counts read back from the initialized
throwaway filter context. The pad counts are read regardless of the init
verdict, exactly as the source does. -/
structure Registry where
  known : List Char → Bool
  init_ok : List Char → List Char → Bool
  pad_counts : List Char → List Char → Nat × Nat

/-! ## Scanner (impl GraphParser): cursor operations over the remaining
buffer. `skip` is `List.drop` (already clamped at the end). -/

/-- GraphParser::peek. -/
def peek (buf : List Char) : Option Char := buf.head?

/-- GraphParser::peek_len. -/
def peek_len (n : Nat) (buf : List Char) : Option (List Char) :=
  if n ≤ buf.length then some (buf.take n) else none

/-- GraphParser::peek_until: longest prefix before the first byte satisfying
f; none when no byte of the remainder satisfies f. -/
def peek_until (f : Char → Bool) (buf : List Char) : Option (List Char) :=
  if buf.any f then some (buf.takeWhile (fun c => !(f c))) else none

/-- GraphParser::peek_until_end: same, but the whole remainder when no byte
satisfies f. -/
def peek_until_end (f : Char → Bool) (buf : List Char) : List Char :=
  buf.takeWhile (fun c => !(f c))

/-- Whitespace skipped by GraphParser::skip_ws. -/
def is_ws (c : Char) : Bool := c == ' ' || c == '\n' || c == '\r' || c == '\t'

/-- GraphParser::skip_ws. -/
def skip_ws (buf : List Char) : List Char := buf.dropWhile is_ws

/-! ## Directive, inputs, filter creation -/

/-- The directive keyword. -/
def swsKeyword : List Char := ("sws_flags=").data

/-- GraphParser::parse_sws_flags: on a `sws_flags=` prefix, keep the
`flags=` part (skip only 4 bytes) and record everything up to the mandatory
semicolon. -/
def parse_sws_flags (graph : FilterGraphState) (buf : List Char) :
    Except Fail (FilterGraphState × List Char) :=
  if peek_len 10 buf ≠ some swsKeyword then .ok (graph, buf)
  else
    match peek_until (fun c => c == ';') (buf.drop 4) with
    | none => .error (.err .unterminatedDirective)
    | some p => .ok ({ scale_sws_opts := some p }, (buf.drop 4).drop (p.length + 1))

/-- extract_inout: remove the first entry of the pool carrying the given
label, returning it together with the remaining pool. -/
def removeFirstNamed (nm : List Char) : List FilterInOut →
    Option FilterInOut × List FilterInOut
  | [] => (none, [])
  | e :: es =>
    if e.name = some nm then (some e, es)
    else
      let r := removeFirstNamed nm es
      (r.1, e :: r.2)

/-- Loop body of GraphParser::parse_inputs: parse leading bracket labels,
resolving each against the open-outputs pool (fuel bounds the iteration
count; the wrappers pass a proven-sufficient amount). -/
def parse_inputs_core :
    Nat → Nat → List FilterInOut → List FilterInOut → List Char →
    Except Fail (List FilterInOut × List FilterInOut × List Char)
  | 0, _, _, _, _ => .error .fuelOut
  | fuel + 1, pad, parsed, open_out, buf =>
    if peek buf ≠ some '[' then .ok (parsed, open_out, buf)
    else
      match peek_until (fun c => c == ']') (buf.drop 1) with
      | none => .error (.err .unclosedBracket)
      | some nm =>
        match removeFirstNamed nm open_out with
        | (some e, open_out1) =>
          parse_inputs_core fuel (pad + 1) (parsed ++ [e]) open_out1
            (skip_ws ((buf.drop 1).drop (nm.length + 1)))
        | (none, open_out1) =>
          parse_inputs_core fuel (pad + 1)
            (parsed ++ [{ name := some nm, pad_idx := pad, filter_ctx := none }])
            open_out1 (skip_ws ((buf.drop 1).drop (nm.length + 1)))

/-- GraphParser::parse_inputs: freshly parsed labels are prepended to the
current-inputs carried over from the previous filter of the chain. -/
def parse_inputs (curr open_out : List FilterInOut) (buf : List Char) :
    Except Fail (List FilterInOut × List FilterInOut × List Char) :=
  match parse_inputs_core (buf.length + 1) 0 [] open_out buf with
  | .error e => .error e
  | .ok (parsed, open_out1, buf1) => .ok (parsed ++ curr, open_out1, buf1)

/-- Default instance name, format Parsed_{name}_{index}. -/
def default_inst_name (name : List Char) (index : Nat) : List Char :=
  ("Parsed_").data ++ name ++ ("_").data ++ (Nat.repr index).data

/-- The instance-name split of create_filter: an `@` that is present and not
trailing makes the left part the filter name and the full text the instance
name; otherwise the defaults apply. Returns (filt_name, inst_name). -/
def filter_names (name : List Char) (index : Nat) : List Char × List Char :=
  match List.findIdx? (fun c => c == '@') name with
  | some i =>
    if i + 1 ≠ name.length then (name.take i, name)
    else (name, default_inst_name name index)
  | none => (name, default_inst_name name index)

/-- Substring containment, Rust str::contains. -/
def contains_sub (needle hay : List Char) : Bool :=
  hay.tails.any (fun t => needle.isPrefixOf t)

/-- Name of the scale filter. -/
def scaleStr : List Char := ("scale").data

/-- The substring checked by the scale argument-inheritance rule. -/
def flagsStr : List Char := ("flags").data

/-- GraphParser::create_filter.  None corresponds to the Rust None (filter
name unknown to the registry; the alloc-failure path is out-of-memory only
and is not modelled).  Note: the avfilter_init_str verdict is computed but
only logged by the source — a negative result does not abort creation, and
the pad counts are read afterwards regardless. -/
def create_filter (reg : Registry) (graph : FilterGraphState)
    (name args : List Char) (index : Nat) : Option FilterContext :=
  let filt_name := (filter_names name index).1
  let inst_name := (filter_names name index).2
  if reg.known filt_name = false then none
  else
    let args1 :=
      if filt_name = scaleStr ∧ (args = [] ∨ contains_sub flagsStr args = false)
          ∧ graph.scale_sws_opts.isSome then
        match graph.scale_sws_opts with
        | some sws => if args = [] then sws else args ++ ':' :: sws
        | none => args
      else args
    let _ := reg.init_ok filt_name args1
    some { index := index, filt_name := filt_name, inst_name := inst_name,
           args := args1,
           nb_inputs := (reg.pad_counts filt_name args1).1,
           nb_outputs := (reg.pad_counts filt_name args1).2 }

/-- Whitespace trimmed from names and option strings by parse_filter (note:
unlike skip_ws this does not include carriage return). -/
def is_trim_ws (c : Char) : Bool := c == ' ' || c == '\n' || c == '\t'

/-- The trim closure of GraphParser::parse_filter: the slice between the
first and the last byte that is not space/newline/tab (empty when none). -/
def trim (s : List Char) : List Char :=
  ((s.dropWhile is_trim_ws).reverse.dropWhile is_trim_ws).reverse

/-- GraphParser::parse_filter: read the filter name up to one of `= , ; [`,
an optional `=`-introduced option string up to one of `[ ] , ;`, trim both
and create the filter. -/
def parse_filter (reg : Registry) (graph : FilterGraphState) (index : Nat)
    (buf : List Char) : Except Fail (FilterContext × List Char) :=
  let name := peek_until_end (fun c => c == '=' || c == ',' || c == ';' || c == '[') buf
  let buf1 := buf.drop name.length
  let ob :=
    if peek buf1 = some '=' then
      let opts := peek_until_end (fun c => c == '[' || c == ']' || c == ',' || c == ';')
        (buf1.drop 1)
      (opts, (buf1.drop 1).drop opts.length)
    else ([], buf1)
  match create_filter reg graph (trim name) (trim ob.1) index with
  | none => .error (.err .unknownFilter)
  | some fc => .ok (fc, ob.2)

/-! ## Pad wiring -/

/-- The input-pad loop of GraphParser::link_filter_inouts: one iteration per
declared input pad; a bound current-input becomes a link, an unbound or
missing one becomes an open-input entry owned by the new filter. -/
def link_inputs_loop (index fcIndex : Nat) :
    Nat → Nat → List FilterLink → List FilterInOut → List FilterInOut →
    List FilterLink × List FilterInOut × List FilterInOut
  | _, 0, links, curr, open_in => (links, curr, open_in)
  | pad, todo + 1, links, curr, open_in =>
    match curr with
    | [] =>
      link_inputs_loop index fcIndex (pad + 1) todo links []
        (open_in ++ [{ name := none, pad_idx := pad, filter_ctx := some fcIndex }])
    | p :: curr1 =>
      match p.filter_ctx with
      | some i =>
        link_inputs_loop index fcIndex (pad + 1) todo
          (links ++ [{ from_filter := i, from_pad_idx := p.pad_idx,
                       to_filter := index, to_pad_idx := pad }])
          curr1 open_in
      | none =>
        link_inputs_loop index fcIndex (pad + 1) todo links curr1
          (open_in ++ [{ name := p.name, pad_idx := pad, filter_ctx := some fcIndex }])

/-- The fresh anonymous output pads pushed for the new filter. -/
def out_pads (fcIndex n : Nat) : List FilterInOut :=
  (List.range n).map (fun pad => { name := none, pad_idx := pad, filter_ctx := some fcIndex })

/-- GraphParser::link_filter_inouts: wire the declared input pads, fail with
TooManyInputs when current inputs are left over, then queue the declared
output pads as the new current pads. -/
def link_filter_inouts (index : Nat) (links : List FilterLink) (fc : FilterContext)
    (curr open_in : List FilterInOut) :
    Except Fail (List FilterLink × List FilterInOut × List FilterInOut) :=
  let r := link_inputs_loop index fc.index 0 fc.nb_inputs links curr open_in
  if r.2.1 ≠ [] then .error (.err .tooManyInputs)
  else .ok (r.1, out_pads fc.index fc.nb_outputs, r.2.2)

/-- Loop body of GraphParser::parse_outputs: consume one current-output pad
per trailing bracket label; a label matching an open input produces a link
(the Rust code unwraps that entry's filter_ctx), otherwise the pad is
labelled and pushed to the open outputs. -/
def parse_outputs_core :
    Nat → Nat → List FilterLink → List FilterInOut → List FilterInOut →
    List FilterInOut → List Char →
    Except Fail (List FilterLink × List FilterInOut × List FilterInOut ×
      List FilterInOut × List Char)
  | 0, _, _, _, _, _, _ => .error .fuelOut
  | fuel + 1, index, links, curr, open_in, open_out, buf =>
    if peek buf ≠ some '[' then .ok (links, curr, open_in, open_out, buf)
    else
      match peek_until (fun c => c == ']') (buf.drop 1) with
      | none => .error (.err .unclosedBracket)
      | some nm =>
        match curr with
        | [] => .error (.err .tooFewOutputs)
        | input :: curr1 =>
          match removeFirstNamed nm open_in with
          | (some oi, open_in1) =>
            match oi.filter_ctx with
            | none => .error (.panic .openInputCtxNone)
            | some in_index =>
              parse_outputs_core fuel index
                (links ++ [{ from_filter := index, from_pad_idx := input.pad_idx,
                             to_filter := in_index, to_pad_idx := oi.pad_idx }])
                curr1 open_in1 open_out (skip_ws ((buf.drop 1).drop (nm.length + 1)))
          | (none, open_in1) =>
            parse_outputs_core fuel index links curr1 open_in1
              (open_out ++ [{ input with name := some nm }])
              (skip_ws ((buf.drop 1).drop (nm.length + 1)))

/-- GraphParser::parse_outputs. -/
def parse_outputs (index : Nat) (links : List FilterLink)
    (curr open_in open_out : List FilterInOut) (buf : List Char) :
    Except Fail (List FilterLink × List FilterInOut × List FilterInOut ×
      List FilterInOut × List Char) :=
  parse_outputs_core (buf.length + 1) index links curr open_in open_out buf

/-! ## Top level -/

/-- One iteration of the `for index in 0..` loop of avfilter_graph_parse2,
recursing at a comma (same chain) or semicolon (current pads flushed to the
open outputs, new chain), finishing at end of input (flushing as well). -/
def parse_loop_core (reg : Registry) (graph : FilterGraphState) :
    Nat → Nat → List FilterContext → List FilterLink → List FilterInOut →
    List FilterInOut → List FilterInOut → List Char →
    Except Fail (List FilterContext × List FilterLink × List FilterInOut ×
      List FilterInOut)
  | 0, _, _, _, _, _, _, _ => .error .fuelOut
  | fuel + 1, index, filters, links, curr, open_in, open_out, buf =>
    match parse_inputs curr open_out (skip_ws buf) with
    | .error e => .error e
    | .ok (curr1, open_out1, buf1) =>
      match parse_filter reg graph index buf1 with
      | .error e => .error e
      | .ok (filter, buf2) =>
        match link_filter_inouts index links filter curr1 open_in with
        | .error e => .error e
        | .ok (links1, curr2, open_in1) =>
          match parse_outputs index links1 curr2 open_in1 open_out1 buf2 with
          | .error e => .error e
          | .ok (links2, curr3, open_in2, open_out2, buf3) =>
            match peek (skip_ws buf3) with
            | some c =>
              if c = ',' then
                parse_loop_core reg graph fuel (index + 1) (filters ++ [filter])
                  links2 curr3 open_in2 open_out2 ((skip_ws buf3).drop 1)
              else if c = ';' then
                parse_loop_core reg graph fuel (index + 1) (filters ++ [filter])
                  links2 [] open_in2 (open_out2 ++ curr3) ((skip_ws buf3).drop 1)
              else .error (.err .unexpectedTrailingText)
            | none => .ok (filters ++ [filter], links2, open_in2, open_out2 ++ curr3)

/-- The serialization section of avfilter_graph_parse2, reduced to its
abort behaviour: code-name indexing of link endpoints, the filter_ctx
unwraps plus code-name indexing for each open input/output, and finally the
unguarded `inputs_code_name[0]` / `outputs_code_name[0]` accesses. -/
def finalize (filters : List FilterContext) (links : List FilterLink)
    (open_in open_out : List FilterInOut) : ParseOutcome :=
  if links.any (fun l =>
      filters.length ≤ l.from_filter || filters.length ≤ l.to_filter) then
    .panic .serializeLinks
  else if open_in.any (fun e =>
      match e.filter_ctx with
      | none => true
      | some i => filters.length ≤ i) then
    .panic .serializeInputs
  else if open_out.any (fun e =>
      match e.filter_ctx with
      | none => true
      | some i => filters.length ≤ i) then
    .panic .serializeOutputs
  else if open_in.isEmpty then .panic .emptyInputsIndex
  else if open_out.isEmpty then .panic .emptyOutputsIndex
  else .ok { filters := filters, links := links,
             open_inputs := open_in, open_outputs := open_out }

/-- avfilter_graph_parse2.  The Err of parse_sws_flags is unwrapped by the
source (a panic, not an error return).  The loop fuel is the buffer length
plus one, proven sufficient below (avfilter_graph_parse2_ne_fuelOut). -/
def avfilter_graph_parse2 (reg : Registry) (filters : List Char) : ParseOutcome :=
  let buf := skip_ws filters
  match parse_sws_flags { scale_sws_opts := none } buf with
  | .error _ => .panic .swsUnwrap
  | .ok (graph, buf1) =>
    match parse_loop_core reg graph (buf1.length + 1) 0 [] [] [] [] [] buf1 with
    | .error (.err e) => .err e
    | .error (.panic p) => .panic p
    | .error .fuelOut => .fuelOut
    | .ok (fs, links, open_in, open_out) => finalize fs links open_in open_out

/-! ## Concrete registries used to instantiate the claims -/

/-- Registry of the cross-chain scenario: scale 1-in/1-out, overlay
2-in/1-out. -/
def regC2 : Registry where
  known := fun nm => nm == ("scale").data || nm == ("overlay").data
  init_ok := fun _ _ => true
  pad_counts := fun nm _ => if nm == ("overlay").data then (2, 1) else (1, 1)

/-- Registry knowing only scale, 1-in/1-out. -/
def regScale : Registry where
  known := fun nm => nm == ("scale").data
  init_ok := fun _ _ => true
  pad_counts := fun _ _ => (1, 1)

/-- Registry knowing only null, 1-in/1-out. -/
def regNull : Registry where
  known := fun nm => nm == ("null").data
  init_ok := fun _ _ => true
  pad_counts := fun _ _ => (1, 1)

/-- Registry knowing only setpts, 1-in/1-out. -/
def regSetpts : Registry where
  known := fun nm => nm == ("setpts").data
  init_ok := fun _ _ => true
  pad_counts := fun _ _ => (1, 1)

/-- Registry knowing only split, 1-in/2-out. -/
def regSplit : Registry where
  known := fun nm => nm == ("split").data
  init_ok := fun _ _ => true
  pad_counts := fun _ _ => (1, 2)

/-- Registry with a source filter (0-in/1-out) and a sink filter
(1-in/0-out). -/
def regSrcSink : Registry where
  known := fun nm => nm == ("src").data || nm == ("sink").data
  init_ok := fun _ _ => true
  pad_counts := fun nm _ => if nm == ("src").data then (0, 1) else (1, 0)

/-- Registry that knows null but whose avfilter_init_str rejects every
argument string. -/
def regInitFail : Registry where
  known := fun nm => nm == ("null").data
  init_ok := fun _ _ => false
  pad_counts := fun _ _ => (1, 1)

/-! ## Counting pad references (used to state the accounting invariant) -/

/-- Default filter context (only used to give list indexing a total type). -/
def fcDefault : FilterContext :=
  { index := 0, filt_name := [], inst_name := [], args := [],
    nb_inputs := 0, nb_outputs := 0 }

/-- The filter stored at position i of the filter list. -/
def fcAt (filters : List FilterContext) (i : Nat) : FilterContext :=
  (filters[i]?).getD fcDefault

/-- How many entries of a pad-reference pool reference pad p of filter i. -/
def refs (pool : List FilterInOut) (i p : Nat) : Nat :=
  pool.countP (fun e => decide (e.filter_ctx = some i ∧ e.pad_idx = p))

/-- How many links end at input pad p of filter i. -/
def linksTo (links : List FilterLink) (i p : Nat) : Nat :=
  links.countP (fun l => decide (l.to_filter = i ∧ l.to_pad_idx = p))

/-- How many links start at output pad p of filter i. -/
def linksFrom (links : List FilterLink) (i p : Nat) : Nat :=
  links.countP (fun l => decide (l.from_filter = i ∧ l.from_pad_idx = p))

/-- Pad accounting of a final parse result: every input pad of every filter
is referenced exactly once across links-to plus open inputs, and every
output pad exactly once across links-from plus open outputs. -/
def PadAccounted (fils : List FilterContext) (lnks : List FilterLink)
    (oi oo : List FilterInOut) : Prop :=
  ∀ i, i < fils.length →
    (fcAt fils i).index = i ∧
    (∀ p, p < (fcAt fils i).nb_inputs → linksTo lnks i p + refs oi i p = 1) ∧
    (∀ p, p < (fcAt fils i).nb_outputs → linksFrom lnks i p + refs oo i p = 1)

/-- The invariant maintained at the top of every iteration of the parse
loop: filters are indexed by position; every already-created pad is
referenced exactly once (current pads count as output references); and all
pool entries are well-formed references to already-created filters. -/
structure LoopInv (filters : List FilterContext) (links : List FilterLink)
    (curr open_in open_out : List FilterInOut) : Prop where
  idx_eq : ∀ i, i < filters.length → (fcAt filters i).index = i
  in_acct : ∀ i, i < filters.length → ∀ p, p < (fcAt filters i).nb_inputs →
    linksTo links i p + refs open_in i p = 1
  out_acct : ∀ i, i < filters.length → ∀ p, p < (fcAt filters i).nb_outputs →
    linksFrom links i p + refs open_out i p + refs curr i p = 1
  links_wf : ∀ l ∈ links,
    l.to_filter < filters.length ∧ l.to_pad_idx < (fcAt filters l.to_filter).nb_inputs ∧
    l.from_filter < filters.length ∧ l.from_pad_idx < (fcAt filters l.from_filter).nb_outputs
  oi_wf : ∀ e ∈ open_in, ∃ i, i < filters.length ∧ e.filter_ctx = some i ∧
    e.pad_idx < (fcAt filters i).nb_inputs
  ooc_wf : ∀ e ∈ open_out ++ curr, ∃ i, i < filters.length ∧ e.filter_ctx = some i ∧
    e.pad_idx < (fcAt filters i).nb_outputs

/-- The result of parsing "null" with regNull (used as a witness input). -/
def rNull : ParsedGraph :=
  { filters := [⟨0, ("null").data, ("Parsed_null_0").data, [], 1, 1⟩],
    links := [],
    open_inputs := [⟨none, 0, some 0⟩],
    open_outputs := [⟨none, 0, some 0⟩] }

/-- The result of parsing "split" with regSplit. -/
def splitRes : ParsedGraph :=
  { filters := [⟨0, ("split").data, ("Parsed_split_0").data, [], 1, 2⟩],
    links := [],
    open_inputs := [⟨none, 0, some 0⟩],
    open_outputs := [⟨none, 0, some 0⟩, ⟨none, 1, some 0⟩] }

/-! ## Scanner lemmas -/

theorem length_skip_ws_le (buf : List Char) : (skip_ws buf).length ≤ buf.length :=
  (List.dropWhile_sublist (p := is_ws) (l := buf)).length_le

theorem takeWhile_all_append (p : Char → Bool) (l : List Char) (c : Char) (r : List Char)
    (hl : ∀ x ∈ l, p x = true) (hc : p c = false) : (l ++ c :: r).takeWhile p = l := by
  induction l with
  | nil => simp [List.takeWhile, hc]
  | cons a l ih =>
    simp only [List.cons_append, List.takeWhile]
    rw [hl a (by simp)]
    simp [ih (fun x hx => hl x (by simp [hx]))]

theorem peek_until_found (f : Char → Bool) (l : List Char) (c : Char) (r : List Char)
    (hl : ∀ x ∈ l, f x = false) (hc : f c = true) :
    peek_until f (l ++ c :: r) = some l := by
  unfold peek_until
  rw [if_pos (List.any_eq_true.mpr ⟨c, by simp, hc⟩)]
  rw [takeWhile_all_append _ _ _ _ (fun x hx => by simp [hl x hx]) (by simp [hc])]

theorem drop_append_cons (l : List Char) (c : Char) (r : List Char) :
    (l ++ c :: r).drop (l.length + 1) = r := by
  rw [List.append_cons]
  exact List.drop_left' (by simp)

theorem peek_until_length (f : Char → Bool) (buf nm : List Char)
    (h : peek_until f buf = some nm) : nm.length < buf.length := by
  unfold peek_until at h
  split at h
  case isTrue hany =>
    obtain ⟨x, hx, hfx⟩ := List.any_eq_true.mp hany
    cases h
    clear hany
    induction buf with
    | nil => cases hx
    | cons a l ih =>
      simp only [List.takeWhile]
      rcases List.mem_cons.mp hx with rfl | hx1
      · rw [hfx]; simp
      · cases hfa : f a with
        | true => simp
        | false =>
          simp only [hfa, Bool.not_false, List.length_cons]
          have := ih hx1
          omega
  case isFalse => cases h

theorem peek_some_ne_nil (buf : List Char) (c : Char) (h : peek buf = some c) : buf ≠ [] := by
  cases buf with
  | nil => cases h
  | cons a l => simp

/-! ## Fuel sufficiency: every recursion is given enough fuel -/

theorem peek_eq_lb (buf : List Char) (hpk : ¬peek buf ≠ some '[') : peek buf = some '[' := by
  by_contra hne
  exact hpk hne

theorem next_buf_lt (buf : List Char) (k : Nat) (hb : buf ≠ []) :
    (skip_ws ((buf.drop 1).drop k)).length < buf.length := by
  have hsw := length_skip_ws_le ((buf.drop 1).drop k)
  have h2 : ((buf.drop 1).drop k).length = buf.length - (k + 1) := by simp
  have hb1 : 0 < buf.length := List.length_pos.mpr hb
  omega

theorem parse_inputs_core_length (fuel : Nat) :
    ∀ pad parsed oo buf parsed1 oo1 buf1,
    parse_inputs_core fuel pad parsed oo buf = .ok (parsed1, oo1, buf1) →
    buf1.length ≤ buf.length := by
  induction fuel with
  | zero => intro pad parsed oo buf p1 o1 b1 h; cases h
  | succ n ih =>
    intro pad parsed oo buf p1 o1 b1 h
    rw [parse_inputs_core] at h
    split at h
    · cases h; exact le_rfl
    case isFalse hpk =>
      split at h
      · cases h
      next nm hpu =>
        have hb : buf ≠ [] := peek_some_ne_nil buf '[' (peek_eq_lb buf hpk)
        have hnx := next_buf_lt buf (nm.length + 1) hb
        split at h
        next e oo1 hrm =>
          have := ih _ _ _ _ _ _ _ h
          omega
        next oo1 hrm =>
          have := ih _ _ _ _ _ _ _ h
          omega

theorem parse_inputs_core_ne_fuelOut (fuel : Nat) :
    ∀ pad parsed oo buf, buf.length < fuel →
    parse_inputs_core fuel pad parsed oo buf ≠ .error .fuelOut := by
  induction fuel with
  | zero => intro pad parsed oo buf h; omega
  | succ n ih =>
    intro pad parsed oo buf hf
    rw [parse_inputs_core]
    split
    · simp
    case isFalse hpk =>
      split
      · simp
      next nm hpu =>
        have hb : buf ≠ [] := peek_some_ne_nil buf '[' (peek_eq_lb buf hpk)
        have hnx := next_buf_lt buf (nm.length + 1) hb
        split
        next e oo1 hrm => exact ih _ _ _ _ (by omega)
        next oo1 hrm => exact ih _ _ _ _ (by omega)

theorem parse_outputs_core_length (fuel : Nat) :
    ∀ index links curr oi oo buf links1 curr1 oi1 oo1 buf1,
    parse_outputs_core fuel index links curr oi oo buf =
      .ok (links1, curr1, oi1, oo1, buf1) →
    buf1.length ≤ buf.length := by
  induction fuel with
  | zero => intro index links curr oi oo buf l1 c1 i1 o1 b1 h; cases h
  | succ n ih =>
    intro index links curr oi oo buf l1 c1 i1 o1 b1 h
    rw [parse_outputs_core] at h
    split at h
    · cases h; exact le_rfl
    case isFalse hpk =>
      split at h
      · cases h
      next nm hpu =>
        have hb : buf ≠ [] := peek_some_ne_nil buf '[' (peek_eq_lb buf hpk)
        have hnx := next_buf_lt buf (nm.length + 1) hb
        split at h
        · cases h
        next input curr2 =>
          split at h
          next oi2 oi3 hrm =>
            split at h
            · cases h
            next j hctx =>
              have := ih _ _ _ _ _ _ _ _ _ _ _ h
              omega
          next oi3 hrm =>
            have := ih _ _ _ _ _ _ _ _ _ _ _ h
            omega

theorem parse_outputs_core_ne_fuelOut (fuel : Nat) :
    ∀ index links curr oi oo buf, buf.length < fuel →
    parse_outputs_core fuel index links curr oi oo buf ≠ .error .fuelOut := by
  induction fuel with
  | zero => intro index links curr oi oo buf h; omega
  | succ n ih =>
    intro index links curr oi oo buf hf
    rw [parse_outputs_core]
    split
    · simp
    case isFalse hpk =>
      split
      · simp
      next nm hpu =>
        have hb : buf ≠ [] := peek_some_ne_nil buf '[' (peek_eq_lb buf hpk)
        have hnx := next_buf_lt buf (nm.length + 1) hb
        split
        · simp
        next input curr2 =>
          split
          next oi2 oi3 hrm =>
            split
            · simp
            next j hctx => exact ih _ _ _ _ _ _ (by omega)
          next oi3 hrm => exact ih _ _ _ _ _ _ (by omega)

theorem parse_inputs_length (curr oo : List FilterInOut) (buf : List Char)
    (curr1 oo1 : List FilterInOut) (buf1 : List Char)
    (h : parse_inputs curr oo buf = .ok (curr1, oo1, buf1)) :
    buf1.length ≤ buf.length := by
  unfold parse_inputs at h
  split at h
  · cases h
  next parsed oo2 buf2 hcore =>
    cases h
    exact parse_inputs_core_length _ _ _ _ _ _ _ _ hcore

theorem parse_inputs_ne_fuelOut (curr oo : List FilterInOut) (buf : List Char) :
    parse_inputs curr oo buf ≠ .error .fuelOut := by
  unfold parse_inputs
  split
  next e hcore =>
    intro hcontra
    cases hcontra
    exact parse_inputs_core_ne_fuelOut _ _ _ _ _ (by omega) hcore
  · simp

theorem parse_outputs_length (index : Nat) (links : List FilterLink)
    (curr oi oo : List FilterInOut) (buf : List Char)
    (links1 : List FilterLink) (curr1 oi1 oo1 : List FilterInOut) (buf1 : List Char)
    (h : parse_outputs index links curr oi oo buf = .ok (links1, curr1, oi1, oo1, buf1)) :
    buf1.length ≤ buf.length :=
  parse_outputs_core_length _ _ _ _ _ _ _ _ _ _ _ _ h

theorem parse_outputs_ne_fuelOut (index : Nat) (links : List FilterLink)
    (curr oi oo : List FilterInOut) (buf : List Char) :
    parse_outputs index links curr oi oo buf ≠ .error .fuelOut :=
  parse_outputs_core_ne_fuelOut _ _ _ _ _ _ _ (by omega)

theorem parse_filter_length (reg : Registry) (graph : FilterGraphState) (index : Nat)
    (buf : List Char) (fc : FilterContext) (buf1 : List Char)
    (h : parse_filter reg graph index buf = .ok (fc, buf1)) :
    buf1.length ≤ buf.length := by
  unfold parse_filter at h
  simp only [] at h
  split at h
  · cases h
  next fc0 hcf =>
    cases h
    split
    · simp only [List.length_drop]; omega
    · simp only [List.length_drop]; omega

theorem parse_filter_err (reg : Registry) (graph : FilterGraphState) (index : Nat)
    (buf : List Char) (e : Fail) (h : parse_filter reg graph index buf = .error e) :
    e = .err .unknownFilter := by
  unfold parse_filter at h
  simp only [] at h
  split at h
  · cases h; rfl
  · cases h

theorem link_filter_inouts_err (index : Nat) (links : List FilterLink) (fc : FilterContext)
    (curr oi : List FilterInOut) (e : Fail)
    (h : link_filter_inouts index links fc curr oi = .error e) :
    e = .err .tooManyInputs := by
  unfold link_filter_inouts at h
  simp only [] at h
  split at h
  · cases h; rfl
  · cases h

theorem parse_loop_core_ne_fuelOut (reg : Registry) (graph : FilterGraphState) (fuel : Nat) :
    ∀ index filters links curr oi oo buf, buf.length < fuel →
    parse_loop_core reg graph fuel index filters links curr oi oo buf ≠ .error .fuelOut := by
  induction fuel with
  | zero => intro index filters links curr oi oo buf h; omega
  | succ n ih =>
    intro index filters links curr oi oo buf hf
    rw [parse_loop_core]
    split
    next e hpi =>
      intro hcontra
      cases hcontra
      exact parse_inputs_ne_fuelOut _ _ _ hpi
    next curr1 oo1 buf1 hpi =>
      split
      next e hpf =>
        intro hcontra
        cases hcontra
        cases parse_filter_err _ _ _ _ _ hpf
      next filter buf2 hpf =>
        split
        next e hlk =>
          intro hcontra
          cases hcontra
          cases link_filter_inouts_err _ _ _ _ _ _ hlk
        next links1 curr2 oi1 hlk =>
          split
          next e hpo =>
            intro hcontra
            cases hcontra
            exact parse_outputs_ne_fuelOut _ _ _ _ _ _ hpo
          next links2 curr3 oi2 oo2 buf3 hpo =>
            have hl1 : buf1.length ≤ (skip_ws buf).length := parse_inputs_length _ _ _ _ _ _ hpi
            have hl2 : buf2.length ≤ buf1.length := parse_filter_length _ _ _ _ _ _ hpf
            have hl3 : buf3.length ≤ buf2.length := parse_outputs_length _ _ _ _ _ _ _ _ _ _ _ hpo
            have hl0 : (skip_ws buf).length ≤ buf.length := length_skip_ws_le buf
            have hl4 : (skip_ws buf3).length ≤ buf3.length := length_skip_ws_le buf3
            split
            next c hpk =>
              have hne : skip_ws buf3 ≠ [] := peek_some_ne_nil _ _ hpk
              have hpos : 0 < (skip_ws buf3).length := List.length_pos.mpr hne
              have hdl : ((skip_ws buf3).drop 1).length = (skip_ws buf3).length - 1 := by simp
              split
              · exact ih _ _ _ _ _ _ _ (by omega)
              split
              · exact ih _ _ _ _ _ _ _ (by omega)
              · simp
            · simp

theorem finalize_ne_fuelOut (filters : List FilterContext) (links : List FilterLink)
    (oi oo : List FilterInOut) : finalize filters links oi oo ≠ .fuelOut := by
  unfold finalize
  split
  · simp
  split
  · simp
  split
  · simp
  split
  · simp
  split
  · simp
  · simp

/-- The fuel passed by avfilter_graph_parse2 is always sufficient: the
fuelOut outcome (an artifact of the embedding; the Rust loop is unbounded)
is unreachable. -/
theorem avfilter_graph_parse2_ne_fuelOut (reg : Registry) (s : List Char) :
    avfilter_graph_parse2 reg s ≠ .fuelOut := by
  unfold avfilter_graph_parse2
  simp only []
  split
  · simp
  next graph buf1 hsws =>
    split
    · simp
    · simp
    next hloop => exact absurd hloop (parse_loop_core_ne_fuelOut _ _ _ _ _ _ _ _ _ _ (by omega))
    next fs links oi oo hloop => exact finalize_ne_fuelOut _ _ _ _

/-! ## Counting lemmas -/

theorem refs_nil (i p : Nat) : refs [] i p = 0 := rfl

theorem refs_cons (e : FilterInOut) (l : List FilterInOut) (i p : Nat) :
    refs (e :: l) i p =
      refs l i p + (if e.filter_ctx = some i ∧ e.pad_idx = p then 1 else 0) := by
  simp [refs, List.countP_cons]

theorem refs_append (l1 l2 : List FilterInOut) (i p : Nat) :
    refs (l1 ++ l2) i p = refs l1 i p + refs l2 i p := by
  simp [refs, List.countP_append]

theorem refs_perm (l1 l2 : List FilterInOut) (h : l1.Perm l2) (i p : Nat) :
    refs l1 i p = refs l2 i p := h.countP_eq _

theorem refs_eq_zero (l : List FilterInOut) (i p : Nat)
    (h : ∀ e ∈ l, ¬(e.filter_ctx = some i ∧ e.pad_idx = p)) : refs l i p = 0 := by
  unfold refs
  rw [List.countP_eq_zero]
  intro a ha
  simp [h a ha]

theorem linksTo_cons (x : FilterLink) (l : List FilterLink) (i p : Nat) :
    linksTo (x :: l) i p =
      linksTo l i p + (if x.to_filter = i ∧ x.to_pad_idx = p then 1 else 0) := by
  simp [linksTo, List.countP_cons]

theorem linksTo_append (l1 l2 : List FilterLink) (i p : Nat) :
    linksTo (l1 ++ l2) i p = linksTo l1 i p + linksTo l2 i p := by
  simp [linksTo, List.countP_append]

theorem linksTo_eq_zero (l : List FilterLink) (i p : Nat)
    (h : ∀ x ∈ l, ¬(x.to_filter = i ∧ x.to_pad_idx = p)) : linksTo l i p = 0 := by
  unfold linksTo
  rw [List.countP_eq_zero]
  intro a ha
  simp [h a ha]

theorem linksFrom_cons (x : FilterLink) (l : List FilterLink) (i p : Nat) :
    linksFrom (x :: l) i p =
      linksFrom l i p + (if x.from_filter = i ∧ x.from_pad_idx = p then 1 else 0) := by
  simp [linksFrom, List.countP_cons]

theorem linksFrom_append (l1 l2 : List FilterLink) (i p : Nat) :
    linksFrom (l1 ++ l2) i p = linksFrom l1 i p + linksFrom l2 i p := by
  simp [linksFrom, List.countP_append]

theorem linksFrom_eq_zero (l : List FilterLink) (i p : Nat)
    (h : ∀ x ∈ l, ¬(x.from_filter = i ∧ x.from_pad_idx = p)) : linksFrom l i p = 0 := by
  unfold linksFrom
  rw [List.countP_eq_zero]
  intro a ha
  simp [h a ha]

theorem out_pads_mem (fcIdx k : Nat) :
    ∀ e ∈ out_pads fcIdx k,
      e.filter_ctx = some fcIdx ∧ e.pad_idx < k ∧ e.name = none := by
  intro e he
  simp only [out_pads, List.mem_map, List.mem_range] at he
  obtain ⟨pad, hlt, rfl⟩ := he
  exact ⟨rfl, hlt, rfl⟩

theorem out_pads_refs (fcIdx k i p : Nat) :
    refs (out_pads fcIdx k) i p = if i = fcIdx ∧ p < k then 1 else 0 := by
  induction k with
  | zero => simp [out_pads, refs]
  | succ k ih =>
    have hsplit : out_pads fcIdx (k + 1) = out_pads fcIdx k ++
        [{ name := none, pad_idx := k, filter_ctx := some fcIdx }] := by
      simp [out_pads, List.range_succ]
    rw [hsplit, refs_append, ih, refs_cons, refs_nil]
    simp only [Option.some_inj]
    split_ifs <;> omega

/-! ## removeFirstNamed lemmas -/

theorem removeFirstNamed_none (nm : List Char) :
    ∀ pool pool1, removeFirstNamed nm pool = (none, pool1) → pool1 = pool := by
  intro pool
  induction pool with
  | nil => intro pool1 h; cases h; rfl
  | cons e es ih =>
    intro pool1 h
    rw [removeFirstNamed] at h
    split at h
    · cases h
    · rcases hr : removeFirstNamed nm es with ⟨r1, r2⟩
      rw [hr] at h
      cases h
      rw [ih r2 (by rw [hr])]

theorem removeFirstNamed_some (nm : List Char) :
    ∀ pool e pool1, removeFirstNamed nm pool = (some e, pool1) →
    pool.Perm (e :: pool1) ∧ e ∈ pool ∧ e.name = some nm := by
  intro pool
  induction pool with
  | nil => intro e pool1 h; cases h
  | cons a es ih =>
    intro e pool1 h
    rw [removeFirstNamed] at h
    split at h
    case isTrue hnm =>
      cases h
      exact ⟨List.Perm.refl _, by simp, hnm⟩
    case isFalse hnm =>
      rcases hr : removeFirstNamed nm es with ⟨r1, r2⟩
      rw [hr] at h
      cases h
      obtain ⟨hperm, hmem, hname⟩ := ih e r2 (by rw [hr])
      refine ⟨?_, by simp [hmem], hname⟩
      exact (hperm.cons a).trans (List.Perm.swap e a r2)

theorem removeFirstNamed_none_of_absent (nm : List Char) :
    ∀ pool, (∀ m ∈ pool, m.name ≠ some nm) →
    removeFirstNamed nm pool = (none, pool) := by
  intro pool
  induction pool with
  | nil => intro h; rfl
  | cons a es ih =>
    intro h
    rw [removeFirstNamed]
    rw [if_neg (h a (by simp))]
    rw [ih (fun m hm => h m (by simp [hm]))]

/-! ## link_inputs_loop lemmas -/

theorem lil_step_nil (n m pad k : Nat) (links : List FilterLink) (oi : List FilterInOut) :
    link_inputs_loop n m pad (k + 1) links [] oi =
    link_inputs_loop n m (pad + 1) k links []
      (oi ++ [{ name := none, pad_idx := pad, filter_ctx := some m }]) := by
  rw [link_inputs_loop]

theorem lil_step_some (n m pad k : Nat) (links : List FilterLink)
    (p : FilterInOut) (cs oi : List FilterInOut) (i0 : Nat) (h : p.filter_ctx = some i0) :
    link_inputs_loop n m pad (k + 1) links (p :: cs) oi =
    link_inputs_loop n m (pad + 1) k
      (links ++ [{ from_filter := i0, from_pad_idx := p.pad_idx,
                   to_filter := n, to_pad_idx := pad }]) cs oi := by
  rw [link_inputs_loop]
  simp [h]

theorem lil_step_none (n m pad k : Nat) (links : List FilterLink)
    (p : FilterInOut) (cs oi : List FilterInOut) (h : p.filter_ctx = none) :
    link_inputs_loop n m pad (k + 1) links (p :: cs) oi =
    link_inputs_loop n m (pad + 1) k links cs
      (oi ++ [{ name := p.name, pad_idx := pad, filter_ctx := some m }]) := by
  rw [link_inputs_loop]
  simp [h]

theorem lil_curr (n m : Nat) :
    ∀ todo pad links curr oi,
    (link_inputs_loop n m pad todo links curr oi).2.1 = curr.drop todo := by
  intro todo
  induction todo with
  | zero => intro pad links curr oi; rw [link_inputs_loop]; rfl
  | succ k ih =>
    intro pad links curr oi
    cases curr with
    | nil => rw [lil_step_nil, ih]; simp
    | cons p cs =>
      cases hctx : p.filter_ctx with
      | some i0 => rw [lil_step_some n m pad k links p cs oi i0 hctx, ih]; rfl
      | none => rw [lil_step_none n m pad k links p cs oi hctx, ih]; rfl

theorem lil_untouched (n : Nat) :
    ∀ todo pad links curr oi i p, ¬(i = n ∧ pad ≤ p ∧ p < pad + todo) →
    linksTo (link_inputs_loop n n pad todo links curr oi).1 i p +
      refs (link_inputs_loop n n pad todo links curr oi).2.2 i p =
    linksTo links i p + refs oi i p := by
  intro todo
  induction todo with
  | zero => intro pad links curr oi i p hx; rw [link_inputs_loop]
  | succ k ih =>
    intro pad links curr oi i p hx
    have hx1 : ¬(i = n ∧ pad + 1 ≤ p ∧ p < pad + 1 + k) := by
      rintro ⟨h1, h2, h3⟩; exact hx ⟨h1, by omega, by omega⟩
    have hnp : ¬(i = n ∧ p = pad) := by
      rintro ⟨h1, h2⟩; exact hx ⟨h1, by omega, by omega⟩
    cases curr with
    | nil =>
      rw [lil_step_nil, ih (pad + 1) links [] _ i p hx1, refs_append, refs_cons, refs_nil]
      rw [if_neg (by rintro ⟨ha, hb⟩; simp only [Option.some_inj] at ha; exact hnp ⟨ha.symm, hb.symm⟩)]
      omega
    | cons q cs =>
      cases hctx : q.filter_ctx with
      | some i0 =>
        rw [lil_step_some n n pad k links q cs oi i0 hctx, ih (pad + 1) _ cs oi i p hx1]
        rw [linksTo_append, linksTo_cons, linksTo_eq_zero [] i p (by simp)]
        rw [if_neg (by rintro ⟨ha, hb⟩; exact hnp ⟨ha.symm, hb.symm⟩)]
        omega
      | none =>
        rw [lil_step_none n n pad k links q cs oi hctx, ih (pad + 1) links cs _ i p hx1]
        rw [refs_append, refs_cons, refs_nil]
        rw [if_neg (by rintro ⟨ha, hb⟩; simp only [Option.some_inj] at ha; exact hnp ⟨ha.symm, hb.symm⟩)]
        omega

theorem lil_covered (n : Nat) :
    ∀ todo pad links curr oi p, pad ≤ p → p < pad + todo →
    linksTo (link_inputs_loop n n pad todo links curr oi).1 n p +
      refs (link_inputs_loop n n pad todo links curr oi).2.2 n p =
    linksTo links n p + refs oi n p + 1 := by
  intro todo
  induction todo with
  | zero => intro pad links curr oi p h1 h2; omega
  | succ k ih =>
    intro pad links curr oi p h1 h2
    by_cases hp : p = pad
    · subst hp
      have hx1 : ¬(n = n ∧ p + 1 ≤ p ∧ p < p + 1 + k) := by rintro ⟨_, h, _⟩; omega
      cases curr with
      | nil =>
        rw [lil_step_nil, lil_untouched n k (p + 1) links [] _ n p hx1]
        rw [refs_append, refs_cons, refs_nil, if_pos ⟨rfl, rfl⟩]
        omega
      | cons q cs =>
        cases hctx : q.filter_ctx with
        | some i0 =>
          rw [lil_step_some n n p k links q cs oi i0 hctx,
            lil_untouched n k (p + 1) _ cs oi n p hx1]
          rw [linksTo_append, linksTo_cons, linksTo_eq_zero [] n p (by simp), if_pos ⟨rfl, rfl⟩]
          omega
        | none =>
          rw [lil_step_none n n p k links q cs oi hctx,
            lil_untouched n k (p + 1) links cs _ n p hx1]
          rw [refs_append, refs_cons, refs_nil, if_pos ⟨rfl, rfl⟩]
          omega
    · have h1' : pad + 1 ≤ p := by omega
      have h2' : p < pad + 1 + k := by omega
      have hne : ¬(p = pad) := hp
      cases curr with
      | nil =>
        rw [lil_step_nil, ih (pad + 1) links [] _ p h1' h2']
        rw [refs_append, refs_cons, refs_nil]
        rw [if_neg (by rintro ⟨ha, hb⟩; exact hne hb.symm)]
        omega
      | cons q cs =>
        cases hctx : q.filter_ctx with
        | some i0 =>
          rw [lil_step_some n n pad k links q cs oi i0 hctx, ih (pad + 1) _ cs oi p h1' h2']
          rw [linksTo_append, linksTo_cons, linksTo_eq_zero [] n p (by simp)]
          rw [if_neg (by rintro ⟨ha, hb⟩; exact hne hb.symm)]
          omega
        | none =>
          rw [lil_step_none n n pad k links q cs oi hctx, ih (pad + 1) links cs _ p h1' h2']
          rw [refs_append, refs_cons, refs_nil]
          rw [if_neg (by rintro ⟨ha, hb⟩; exact hne hb.symm)]
          omega

theorem lil_from (n : Nat) :
    ∀ todo pad links curr oi, curr.length ≤ todo → ∀ i p,
    linksFrom (link_inputs_loop n n pad todo links curr oi).1 i p =
    linksFrom links i p + refs curr i p := by
  intro todo
  induction todo with
  | zero =>
    intro pad links curr oi hlen i p
    have : curr = [] := List.length_eq_zero.mp (by omega)
    subst this
    rw [link_inputs_loop, refs_nil]
    simp [linksFrom]
  | succ k ih =>
    intro pad links curr oi hlen i p
    cases curr with
    | nil =>
      rw [lil_step_nil, ih (pad + 1) links [] _ (by simp) i p, refs_nil]
    | cons q cs =>
      have hcs : cs.length ≤ k := by simp at hlen; omega
      cases hctx : q.filter_ctx with
      | some i0 =>
        rw [lil_step_some n n pad k links q cs oi i0 hctx, ih (pad + 1) _ cs oi hcs i p]
        rw [linksFrom_append, linksFrom_cons, linksFrom_eq_zero [] i p (by simp)]
        rw [refs_cons, hctx]
        by_cases hi : i0 = i <;> by_cases hq : q.pad_idx = p
        all_goals (simp only [hi, hq, Option.some_inj]; simp_all; try omega)
      | none =>
        rw [lil_step_none n n pad k links q cs oi hctx, ih (pad + 1) links cs _ hcs i p]
        rw [refs_cons, hctx]
        rw [if_neg (by rintro ⟨ha, _⟩; cases ha)]
        omega

theorem lil_oi_mem (n : Nat) :
    ∀ todo pad links curr oi e, e ∈ (link_inputs_loop n n pad todo links curr oi).2.2 →
    e ∈ oi ∨ (e.filter_ctx = some n ∧ pad ≤ e.pad_idx ∧ e.pad_idx < pad + todo) := by
  intro todo
  induction todo with
  | zero => intro pad links curr oi e he; rw [link_inputs_loop] at he; exact Or.inl he
  | succ k ih =>
    intro pad links curr oi e he
    cases curr with
    | nil =>
      rw [lil_step_nil] at he
      rcases ih (pad + 1) links [] _ e he with h | ⟨h1, h2, h3⟩
      · rcases List.mem_append.mp h with h | h
        · exact Or.inl h
        · simp only [List.mem_singleton] at h
          subst h
          exact Or.inr ⟨rfl, by simp, by simp⟩
      · exact Or.inr ⟨h1, by omega, by omega⟩
    | cons q cs =>
      cases hctx : q.filter_ctx with
      | some i0 =>
        rw [lil_step_some n n pad k links q cs oi i0 hctx] at he
        rcases ih (pad + 1) _ cs oi e he with h | ⟨h1, h2, h3⟩
        · exact Or.inl h
        · exact Or.inr ⟨h1, by omega, by omega⟩
      | none =>
        rw [lil_step_none n n pad k links q cs oi hctx] at he
        rcases ih (pad + 1) links cs _ e he with h | ⟨h1, h2, h3⟩
        · rcases List.mem_append.mp h with h | h
          · exact Or.inl h
          · simp only [List.mem_singleton] at h
            subst h
            exact Or.inr ⟨rfl, by simp, by simp⟩
        · exact Or.inr ⟨h1, by omega, by omega⟩

theorem lil_links_mem (n : Nat) :
    ∀ todo pad links curr oi l, l ∈ (link_inputs_loop n n pad todo links curr oi).1 →
    l ∈ links ∨ (l.to_filter = n ∧ pad ≤ l.to_pad_idx ∧ l.to_pad_idx < pad + todo ∧
      ∃ e ∈ curr, e.filter_ctx = some l.from_filter ∧ e.pad_idx = l.from_pad_idx) := by
  intro todo
  induction todo with
  | zero => intro pad links curr oi l hl; rw [link_inputs_loop] at hl; exact Or.inl hl
  | succ k ih =>
    intro pad links curr oi l hl
    cases curr with
    | nil =>
      rw [lil_step_nil] at hl
      rcases ih (pad + 1) links [] _ l hl with h | ⟨h1, h2, h3, e, he, _⟩
      · exact Or.inl h
      · cases he
    | cons q cs =>
      cases hctx : q.filter_ctx with
      | some i0 =>
        rw [lil_step_some n n pad k links q cs oi i0 hctx] at hl
        rcases ih (pad + 1) _ cs oi l hl with h | ⟨h1, h2, h3, e, he, hee⟩
        · rcases List.mem_append.mp h with h | h
          · exact Or.inl h
          · simp only [List.mem_singleton] at h
            subst h
            exact Or.inr ⟨rfl, by simp, by simp, q, by simp, by simp [hctx]⟩
        · exact Or.inr ⟨h1, by omega, by omega, e, by simp [he], hee⟩
      | none =>
        rw [lil_step_none n n pad k links q cs oi hctx] at hl
        rcases ih (pad + 1) links cs _ l hl with h | ⟨h1, h2, h3, e, he, hee⟩
        · exact Or.inl h
        · exact Or.inr ⟨h1, by omega, by omega, e, by simp [he], hee⟩

theorem refs_singleton (nmv : Option (List Char)) (pd : Nat) (cx : Option Nat) (i p : Nat) :
    refs [{ name := nmv, pad_idx := pd, filter_ctx := cx }] i p =
      if cx = some i ∧ pd = p then 1 else 0 := by
  rw [refs_cons, refs_nil]
  simp

theorem linksFrom_singleton (a b c d i p : Nat) :
    linksFrom [{ from_filter := a, from_pad_idx := b, to_filter := c, to_pad_idx := d }] i p =
      if a = i ∧ b = p then 1 else 0 := by
  rw [linksFrom_cons, linksFrom_eq_zero [] i p (by simp)]
  simp

theorem linksTo_singleton (a b c d i p : Nat) :
    linksTo [{ from_filter := a, from_pad_idx := b, to_filter := c, to_pad_idx := d }] i p =
      if c = i ∧ d = p then 1 else 0 := by
  rw [linksTo_cons, linksTo_eq_zero [] i p (by simp)]
  simp

/-! ## parse_inputs step lemma -/

theorem parse_inputs_core_step (fuel : Nat) :
    ∀ pad parsed oo buf parsed1 oo1 buf1,
    parse_inputs_core fuel pad parsed oo buf = .ok (parsed1, oo1, buf1) →
    (∀ i p, refs oo1 i p + refs parsed1 i p = refs oo i p + refs parsed i p) ∧
    (∀ e ∈ oo1, e ∈ oo) ∧
    (∀ e ∈ parsed1, e ∈ parsed ∨ e ∈ oo ∨ e.filter_ctx = none) := by
  induction fuel with
  | zero => intro _ _ _ _ _ _ _ h; cases h
  | succ n ih =>
    intro pad parsed oo buf parsed1 oo1 buf1 h
    rw [parse_inputs_core] at h
    split at h
    · cases h
      exact ⟨fun i p => rfl, fun e he => he, fun e he => Or.inl he⟩
    case isFalse hpk =>
      split at h
      · cases h
      next nm hpu =>
        split at h
        next e oo2 hrm =>
          obtain ⟨hperm, hmem, hname⟩ := removeFirstNamed_some nm oo e oo2 hrm
          obtain ⟨ih1, ih2, ih3⟩ := ih _ _ _ _ _ _ _ h
          refine ⟨?_, ?_, ?_⟩
          · intro i p
            have h1 := ih1 i p
            have hoo : refs oo i p = refs oo2 i p +
                (if e.filter_ctx = some i ∧ e.pad_idx = p then 1 else 0) := by
              rw [refs_perm oo (e :: oo2) hperm, refs_cons]
            have hpp : refs (parsed ++ [e]) i p = refs parsed i p +
                (if e.filter_ctx = some i ∧ e.pad_idx = p then 1 else 0) := by
              rw [refs_append, refs_cons, refs_nil]
              omega
            rw [hpp] at h1
            rw [hoo]
            omega
          · intro x hx
            exact hperm.mem_iff.mpr (List.mem_cons_of_mem e (ih2 x hx))
          · intro x hx
            rcases ih3 x hx with hx1 | hx1 | hx1
            · rcases List.mem_append.mp hx1 with hx2 | hx2
              · exact Or.inl hx2
              · simp only [List.mem_singleton] at hx2
                subst hx2
                exact Or.inr (Or.inl hmem)
            · exact Or.inr (Or.inl (hperm.mem_iff.mpr (List.mem_cons_of_mem e hx1)))
            · exact Or.inr (Or.inr hx1)
        next oo2 hrm =>
          have hoo2 : oo2 = oo := removeFirstNamed_none nm oo oo2 hrm
          subst hoo2
          obtain ⟨ih1, ih2, ih3⟩ := ih _ _ _ _ _ _ _ h
          refine ⟨?_, ih2, ?_⟩
          · intro i p
            have h1 := ih1 i p
            have hpp : refs (parsed ++
                [{ name := some nm, pad_idx := pad, filter_ctx := none }]) i p =
                refs parsed i p := by
              rw [refs_append, refs_singleton]
              rw [if_neg (by rintro ⟨ha, _⟩; cases ha)]
              omega
            rw [hpp] at h1
            omega
          · intro x hx
            rcases ih3 x hx with hx1 | hx1 | hx1
            · rcases List.mem_append.mp hx1 with hx2 | hx2
              · exact Or.inl hx2
              · simp only [List.mem_singleton] at hx2
                subst hx2
                exact Or.inr (Or.inr rfl)
            · exact Or.inr (Or.inl hx1)
            · exact Or.inr (Or.inr hx1)

theorem parse_inputs_step (curr oo : List FilterInOut) (buf : List Char)
    (curr1 oo1 : List FilterInOut) (buf1 : List Char)
    (h : parse_inputs curr oo buf = .ok (curr1, oo1, buf1)) :
    (∀ i p, refs oo1 i p + refs curr1 i p = refs oo i p + refs curr i p) ∧
    (∀ e ∈ oo1, e ∈ oo) ∧
    (∀ e ∈ curr1, e ∈ curr ∨ e ∈ oo ∨ e.filter_ctx = none) := by
  unfold parse_inputs at h
  split at h
  · cases h
  next parsed oo2 buf2 hcore =>
    cases h
    obtain ⟨c1, c2, c3⟩ := parse_inputs_core_step _ _ _ _ _ _ _ _ hcore
    refine ⟨?_, c2, ?_⟩
    · intro i p
      have := c1 i p
      rw [refs_append]
      rw [refs_nil] at this
      omega
    · intro x hx
      rcases List.mem_append.mp hx with hx1 | hx1
      · rcases c3 x hx1 with hx2 | hx2 | hx2
        · cases hx2
        · exact Or.inr (Or.inl hx2)
        · exact Or.inr (Or.inr hx2)
      · exact Or.inl hx1

/-! ## parse_outputs step lemma -/

theorem parse_outputs_core_step (fuel : Nat) :
    ∀ idx links curr oi oo buf links1 curr1 oi1 oo1 buf1,
    parse_outputs_core fuel idx links curr oi oo buf =
      .ok (links1, curr1, oi1, oo1, buf1) →
    (∀ e ∈ curr, e.filter_ctx = some idx) →
    (∀ i p, linksFrom links1 i p + refs oo1 i p + refs curr1 i p
          = linksFrom links i p + refs oo i p + refs curr i p) ∧
    (∀ i p, linksTo links1 i p + refs oi1 i p = linksTo links i p + refs oi i p) ∧
    (∀ e ∈ curr1, e ∈ curr) ∧
    (∀ e ∈ oi1, e ∈ oi) ∧
    (∀ e ∈ oo1, e ∈ oo ∨ ∃ e0 ∈ curr, e.filter_ctx = e0.filter_ctx ∧
        e.pad_idx = e0.pad_idx ∧ e.name ≠ none) ∧
    (∀ l ∈ links1, l ∈ links ∨ (l.from_filter = idx ∧
        (∃ e0 ∈ curr, e0.pad_idx = l.from_pad_idx) ∧
        ∃ m ∈ oi, m.filter_ctx = some l.to_filter ∧ m.pad_idx = l.to_pad_idx)) := by
  induction fuel with
  | zero => intro _ _ _ _ _ _ _ _ _ _ _ h _; cases h
  | succ n ih =>
    intro idx links curr oi oo buf links1 curr1 oi1 oo1 buf1 h hc
    rw [parse_outputs_core] at h
    split at h
    · cases h
      exact ⟨fun i p => rfl, fun i p => rfl, fun e he => he, fun e he => he,
        fun e he => Or.inl he, fun l hl => Or.inl hl⟩
    case isFalse hpk =>
      split at h
      · cases h
      next nm hpu =>
        split at h
        · cases h
        next input curr2 =>
          have hcin : input.filter_ctx = some idx := hc input (by simp)
          have hc2 : ∀ e ∈ curr2, e.filter_ctx = some idx :=
            fun e he => hc e (by simp [he])
          split at h
          next m oi2 hrm =>
            obtain ⟨hperm, hmemm, hnamem⟩ := removeFirstNamed_some nm oi m oi2 hrm
            split at h
            · cases h
            next j hctx =>
              obtain ⟨I1, I2, I3, I4, I5, I6⟩ := ih _ _ _ _ _ _ _ _ _ _ _ h hc2
              refine ⟨?_, ?_, ?_, ?_, ?_, ?_⟩
              · intro i p
                have h1 := I1 i p
                rw [linksFrom_append, linksFrom_singleton] at h1
                rw [refs_cons, hcin]
                simp only [Option.some_inj]
                by_cases hC : idx = i ∧ input.pad_idx = p
                · rw [if_pos hC] at h1 ⊢; omega
                · rw [if_neg hC] at h1 ⊢; omega
              · intro i p
                have h2 := I2 i p
                rw [linksTo_append, linksTo_singleton] at h2
                rw [refs_perm oi (m :: oi2) hperm, refs_cons, hctx]
                simp only [Option.some_inj]
                by_cases hC : j = i ∧ m.pad_idx = p
                · rw [if_pos hC] at h2 ⊢; omega
                · rw [if_neg hC] at h2 ⊢; omega
              · exact fun e he => List.mem_cons_of_mem input (I3 e he)
              · exact fun e he => hperm.mem_iff.mpr (List.mem_cons_of_mem m (I4 e he))
              · intro e he
                rcases I5 e he with h5 | ⟨e0, he0, h5a, h5b, h5c⟩
                · exact Or.inl h5
                · exact Or.inr ⟨e0, List.mem_cons_of_mem input he0, h5a, h5b, h5c⟩
              · intro l hl
                rcases I6 l hl with h6 | ⟨h6a, ⟨e0, he0, h6b⟩, m1, hm1, h6c, h6d⟩
                · rcases List.mem_append.mp h6 with h7 | h7
                  · exact Or.inl h7
                  · simp only [List.mem_singleton] at h7
                    subst h7
                    exact Or.inr ⟨rfl, ⟨input, by simp, rfl⟩, m, hmemm, by rw [hctx], rfl⟩
                · exact Or.inr ⟨h6a, ⟨e0, List.mem_cons_of_mem input he0, h6b⟩,
                    m1, hperm.mem_iff.mpr (List.mem_cons_of_mem m hm1), h6c, h6d⟩
          next oi2 hrm =>
            have hoi2 : oi2 = oi := removeFirstNamed_none nm oi oi2 hrm
            subst hoi2
            obtain ⟨I1, I2, I3, I4, I5, I6⟩ := ih _ _ _ _ _ _ _ _ _ _ _ h hc2
            refine ⟨?_, I2, ?_, I4, ?_, ?_⟩
            · intro i p
              have h1 := I1 i p
              rw [refs_append, refs_singleton] at h1
              rw [refs_cons]
              by_cases hC : input.filter_ctx = some i ∧ input.pad_idx = p
              · rw [if_pos hC] at h1 ⊢; omega
              · rw [if_neg hC] at h1 ⊢; omega
            · exact fun e he => List.mem_cons_of_mem input (I3 e he)
            · intro e he
              rcases I5 e he with h5 | ⟨e0, he0, h5a, h5b, h5c⟩
              · rcases List.mem_append.mp h5 with h7 | h7
                · exact Or.inl h7
                · simp only [List.mem_singleton] at h7
                  subst h7
                  exact Or.inr ⟨input, by simp, rfl, rfl, by simp⟩
              · exact Or.inr ⟨e0, List.mem_cons_of_mem input he0, h5a, h5b, h5c⟩
            · intro l hl
              rcases I6 l hl with h6 | ⟨h6a, ⟨e0, he0, h6b⟩, m1, hm1, h6c, h6d⟩
              · exact Or.inl h6
              · exact Or.inr ⟨h6a, ⟨e0, List.mem_cons_of_mem input he0, h6b⟩,
                  m1, hm1, h6c, h6d⟩

theorem parse_outputs_step (idx : Nat) (links : List FilterLink)
    (curr oi oo : List FilterInOut) (buf : List Char)
    (links1 : List FilterLink) (curr1 oi1 oo1 : List FilterInOut) (buf1 : List Char)
    (h : parse_outputs idx links curr oi oo buf = .ok (links1, curr1, oi1, oo1, buf1))
    (hc : ∀ e ∈ curr, e.filter_ctx = some idx) :
    (∀ i p, linksFrom links1 i p + refs oo1 i p + refs curr1 i p
          = linksFrom links i p + refs oo i p + refs curr i p) ∧
    (∀ i p, linksTo links1 i p + refs oi1 i p = linksTo links i p + refs oi i p) ∧
    (∀ e ∈ curr1, e ∈ curr) ∧
    (∀ e ∈ oi1, e ∈ oi) ∧
    (∀ e ∈ oo1, e ∈ oo ∨ ∃ e0 ∈ curr, e.filter_ctx = e0.filter_ctx ∧
        e.pad_idx = e0.pad_idx ∧ e.name ≠ none) ∧
    (∀ l ∈ links1, l ∈ links ∨ (l.from_filter = idx ∧
        (∃ e0 ∈ curr, e0.pad_idx = l.from_pad_idx) ∧
        ∃ m ∈ oi, m.filter_ctx = some l.to_filter ∧ m.pad_idx = l.to_pad_idx)) :=
  parse_outputs_core_step _ _ _ _ _ _ _ _ _ _ _ _ h hc

/-! ## link_filter_inouts assembly -/

theorem link_filter_inouts_ok (idx : Nat) (links : List FilterLink) (fc : FilterContext)
    (curr oi : List FilterInOut) (links1 : List FilterLink) (curr1 oi1 : List FilterInOut)
    (hidx : fc.index = idx)
    (h : link_filter_inouts idx links fc curr oi = .ok (links1, curr1, oi1)) :
    curr.length ≤ fc.nb_inputs ∧
    curr1 = out_pads idx fc.nb_outputs ∧
    links1 = (link_inputs_loop idx idx 0 fc.nb_inputs links curr oi).1 ∧
    oi1 = (link_inputs_loop idx idx 0 fc.nb_inputs links curr oi).2.2 := by
  unfold link_filter_inouts at h
  simp only [] at h
  rw [hidx] at h
  split at h
  · cases h
  case isFalse hne =>
    cases h
    have hnil : (link_inputs_loop idx idx 0 fc.nb_inputs links curr oi).2.1 = [] :=
      not_not.mp hne
    rw [lil_curr] at hnil
    exact ⟨List.drop_eq_nil_iff.mp hnil, rfl, rfl, rfl⟩

theorem fcAt_append_lt (filters : List FilterContext) (fc : FilterContext) (i : Nat)
    (h : i < filters.length) : fcAt (filters ++ [fc]) i = fcAt filters i := by
  unfold fcAt
  rw [List.getElem?_append, if_pos h]

theorem fcAt_append_self (filters : List FilterContext) (fc : FilterContext) :
    fcAt (filters ++ [fc]) filters.length = fc := by
  unfold fcAt
  rw [List.getElem?_append, if_neg (by omega)]
  simp

/-! ## One loop iteration preserves the invariant -/

theorem iteration_preserves
    (filters : List FilterContext) (links : List FilterLink)
    (curr oi oo : List FilterInOut)
    (inv : LoopInv filters links curr oi oo)
    (buf0 buf1 : List Char) (curr1 oo1 : List FilterInOut)
    (h1 : parse_inputs curr oo buf0 = .ok (curr1, oo1, buf1))
    (fc : FilterContext) (hfc : fc.index = filters.length)
    (links2 : List FilterLink) (curr2 oi2 : List FilterInOut)
    (h3 : link_filter_inouts filters.length links fc curr1 oi = .ok (links2, curr2, oi2))
    (links3 : List FilterLink) (curr3 oi3 oo2 : List FilterInOut) (buf2 buf3 : List Char)
    (h4 : parse_outputs filters.length links2 curr2 oi2 oo1 buf2 =
      .ok (links3, curr3, oi3, oo2, buf3)) :
    LoopInv (filters ++ [fc]) links3 curr3 oi3 oo2 := by
  obtain ⟨P1, P2, P3⟩ := parse_inputs_step curr oo buf0 curr1 oo1 buf1 h1
  obtain ⟨hlen, hcurr2, hlinks2, hoi2⟩ :=
    link_filter_inouts_ok filters.length links fc curr1 oi links2 curr2 oi2 hfc h3
  have hc2 : ∀ e ∈ curr2, e.filter_ctx = some filters.length := by
    intro e he
    rw [hcurr2] at he
    exact (out_pads_mem _ _ e he).1
  obtain ⟨Q1, Q2, Q3, Q4, Q5, Q6⟩ :=
    parse_outputs_step filters.length links2 curr2 oi2 oo1 buf2 links3 curr3 oi3 oo2 buf3 h4 hc2
  -- entries of curr1 are unbound or reference an existing filter
  have m1 : ∀ e ∈ curr1, e.filter_ctx = none ∨ ∃ i, i < filters.length ∧
      e.filter_ctx = some i ∧ e.pad_idx < (fcAt filters i).nb_outputs := by
    intro e he
    rcases P3 e he with hx | hx | hx
    · exact Or.inr (inv.ooc_wf e (List.mem_append_right oo hx))
    · exact Or.inr (inv.ooc_wf e (List.mem_append_left curr hx))
    · exact Or.inl hx
  -- zero reference counts at the new index
  have zTo : ∀ p, linksTo links filters.length p = 0 := by
    intro p
    apply linksTo_eq_zero
    rintro x hx ⟨hxa, _⟩
    have := (inv.links_wf x hx).1
    omega
  have zFrom : ∀ p, linksFrom links filters.length p = 0 := by
    intro p
    apply linksFrom_eq_zero
    rintro x hx ⟨hxa, _⟩
    have := (inv.links_wf x hx).2.2.1
    omega
  have zOi : ∀ p, refs oi filters.length p = 0 := by
    intro p
    apply refs_eq_zero
    rintro e he ⟨hca, _⟩
    obtain ⟨i, hi, hci, _⟩ := inv.oi_wf e he
    rw [hca] at hci
    cases hci
    omega
  have zOoC : ∀ e, e ∈ oo ++ curr → ∀ p, ¬(e.filter_ctx = some filters.length ∧ e.pad_idx = p) := by
    rintro e he p ⟨hca, _⟩
    obtain ⟨i, hi, hci, _⟩ := inv.ooc_wf e he
    rw [hca] at hci
    cases hci
    omega
  have zOo1 : ∀ p, refs oo1 filters.length p = 0 := by
    intro p
    apply refs_eq_zero
    intro e he
    exact zOoC e (List.mem_append_left curr (P2 e he)) p
  have zCurr1 : ∀ p, refs curr1 filters.length p = 0 := by
    intro p
    apply refs_eq_zero
    rintro e he ⟨hca, hcb⟩
    rcases m1 e he with hx | ⟨i, hi, hci, _⟩
    · rw [hx] at hca; cases hca
    · rw [hca] at hci; cases hci; omega
  -- accounting after the link step
  have inAcct_new : ∀ p, p < fc.nb_inputs →
      linksTo links2 filters.length p + refs oi2 filters.length p = 1 := by
    intro p hp
    rw [hlinks2, hoi2,
      lil_covered filters.length fc.nb_inputs 0 links curr1 oi p (by omega) (by omega),
      zTo, zOi]
  have inAcct_old : ∀ i p, i ≠ filters.length →
      linksTo links2 i p + refs oi2 i p = linksTo links i p + refs oi i p := by
    intro i p hne
    rw [hlinks2, hoi2]
    exact lil_untouched filters.length fc.nb_inputs 0 links curr1 oi i p
      (by rintro ⟨ha, _⟩; exact hne ha)
  have fromEq : ∀ i p, linksFrom links2 i p = linksFrom links i p + refs curr1 i p := by
    intro i p
    rw [hlinks2]
    exact lil_from filters.length fc.nb_inputs 0 links curr1 oi hlen i p
  have oi2_mem : ∀ e ∈ oi2, e ∈ oi ∨ (e.filter_ctx = some filters.length ∧
      e.pad_idx < fc.nb_inputs) := by
    intro e he
    rw [hoi2] at he
    rcases lil_oi_mem filters.length fc.nb_inputs 0 links curr1 oi e he with hx | ⟨ha, _, hb⟩
    · exact Or.inl hx
    · exact Or.inr ⟨ha, by omega⟩
  have links2_mem : ∀ l ∈ links2, l ∈ links ∨ (l.to_filter = filters.length ∧
      l.to_pad_idx < fc.nb_inputs ∧
      ∃ e ∈ curr1, e.filter_ctx = some l.from_filter ∧ e.pad_idx = l.from_pad_idx) := by
    intro l hl
    rw [hlinks2] at hl
    rcases lil_links_mem filters.length fc.nb_inputs 0 links curr1 oi l hl with
      hx | ⟨ha, _, hb, hc⟩
    · exact Or.inl hx
    · exact Or.inr ⟨ha, by omega, hc⟩
  have hL1 : (filters ++ [fc]).length = filters.length + 1 := by simp
  refine ⟨?_, ?_, ?_, ?_, ?_, ?_⟩
  -- idx_eq
  · intro i hi
    rw [hL1] at hi
    by_cases hilt : i < filters.length
    · rw [fcAt_append_lt filters fc i hilt]
      exact inv.idx_eq i hilt
    · have : i = filters.length := by omega
      subst this
      rw [fcAt_append_self]
      exact hfc
  -- in_acct
  · intro i hi p hp
    rw [hL1] at hi
    have base := Q2 i p
    by_cases hilt : i < filters.length
    · rw [fcAt_append_lt filters fc i hilt] at hp
      rw [base, inAcct_old i p (by omega)]
      exact inv.in_acct i hilt p hp
    · have hieq : i = filters.length := by omega
      subst hieq
      rw [fcAt_append_self] at hp
      rw [base]
      exact inAcct_new p hp
  -- out_acct
  · intro i hi p hp
    rw [hL1] at hi
    have base := Q1 i p
    by_cases hilt : i < filters.length
    · rw [fcAt_append_lt filters fc i hilt] at hp
      have hc2r : refs curr2 i p = 0 := by
        rw [hcurr2, out_pads_refs, if_neg (by rintro ⟨ha, _⟩; omega)]
      have hfrom := fromEq i p
      have hP1 := P1 i p
      have hold := inv.out_acct i hilt p hp
      omega
    · have hieq : i = filters.length := by omega
      subst hieq
      rw [fcAt_append_self] at hp
      have hc2r : refs curr2 filters.length p = 1 := by
        rw [hcurr2, out_pads_refs, if_pos ⟨rfl, hp⟩]
      have hfrom := fromEq filters.length p
      have hz1 := zFrom p
      have hz2 := zCurr1 p
      have hz3 := zOo1 p
      omega
  -- links_wf
  · intro l hl
    rcases Q6 l hl with hq | ⟨hqa, ⟨e0, he0, hqb⟩, m, hm, hqc, hqd⟩
    · rcases links2_mem l hq with hx | ⟨hxa, hxb, e, he, hxc, hxd⟩
      · obtain ⟨w1, w2, w3, w4⟩ := inv.links_wf l hx
        rw [hL1]
        refine ⟨by omega, ?_, by omega, ?_⟩
        · rw [fcAt_append_lt filters fc _ w1]; exact w2
        · rw [fcAt_append_lt filters fc _ w3]; exact w4
      · rcases m1 e he with hy | ⟨i, hi, hyc, hyd⟩
        · rw [hy] at hxc; cases hxc
        · rw [hxc] at hyc
          cases hyc
          rw [hL1, hxa]
          refine ⟨by omega, ?_, by omega, ?_⟩
          · rw [fcAt_append_self]; exact hxb
          · rw [fcAt_append_lt filters fc _ hi, ← hxd]; exact hyd
    · rw [hcurr2] at he0
      obtain ⟨_, he0b, _⟩ := out_pads_mem _ _ e0 he0
      rcases oi2_mem m hm with hz | ⟨hza, hzb⟩
      · obtain ⟨i, hi, hzc, hzd⟩ := inv.oi_wf m hz
        rw [hzc] at hqc
        cases hqc
        rw [hL1, hqa]
        refine ⟨by omega, ?_, by omega, ?_⟩
        · rw [fcAt_append_lt filters fc _ hi, ← hqd]; exact hzd
        · rw [fcAt_append_self]; omega
      · rw [hza] at hqc
        have hto : l.to_filter = filters.length := (Option.some_inj.mp hqc).symm
        rw [hL1, hqa, hto]
        refine ⟨by omega, ?_, by omega, ?_⟩
        · rw [fcAt_append_self, ← hqd]; exact hzb
        · rw [fcAt_append_self]; omega
  -- oi_wf
  · intro e he
    rcases oi2_mem e (Q4 e he) with hx | ⟨hxa, hxb⟩
    · obtain ⟨i, hi, ha, hb⟩ := inv.oi_wf e hx
      exact ⟨i, by rw [hL1]; omega, ha, by rw [fcAt_append_lt filters fc _ hi]; exact hb⟩
    · exact ⟨filters.length, by rw [hL1]; omega, hxa,
        by rw [fcAt_append_self]; exact hxb⟩
  -- ooc_wf
  · intro e he
    rcases List.mem_append.mp he with hx | hx
    · rcases Q5 e hx with hy | ⟨e0, he0, hya, hyb, _⟩
      · rcases P2 e hy with hz
        obtain ⟨i, hi, ha, hb⟩ := inv.ooc_wf e (List.mem_append_left curr hz)
        exact ⟨i, by rw [hL1]; omega, ha, by rw [fcAt_append_lt filters fc _ hi]; exact hb⟩
      · rw [hcurr2] at he0
        obtain ⟨ha, hb, _⟩ := out_pads_mem _ _ e0 he0
        refine ⟨filters.length, by rw [hL1]; omega, by rw [hya]; exact ha, ?_⟩
        rw [fcAt_append_self, hyb]
        exact hb
    · have hy := Q3 e hx
      rw [hcurr2] at hy
      obtain ⟨ha, hb, _⟩ := out_pads_mem _ _ e hy
      exact ⟨filters.length, by rw [hL1]; omega, ha, by rw [fcAt_append_self]; exact hb⟩

/-! ## Loop-level accounting -/

theorem create_filter_index (reg : Registry) (graph : FilterGraphState)
    (name args : List Char) (index : Nat) (fc : FilterContext)
    (h : create_filter reg graph name args index = some fc) : fc.index = index := by
  unfold create_filter at h
  simp only [] at h
  split at h
  · cases h
  · cases h
    rfl

theorem parse_filter_index (reg : Registry) (graph : FilterGraphState) (index : Nat)
    (buf : List Char) (fc : FilterContext) (buf1 : List Char)
    (h : parse_filter reg graph index buf = .ok (fc, buf1)) : fc.index = index := by
  unfold parse_filter at h
  simp only [] at h
  split at h
  · cases h
  next fc0 hcf =>
    cases h
    exact create_filter_index _ _ _ _ _ _ hcf

theorem LoopInv_flush (filters : List FilterContext) (links : List FilterLink)
    (curr oi oo : List FilterInOut) (inv : LoopInv filters links curr oi oo) :
    LoopInv filters links [] oi (oo ++ curr) := by
  refine ⟨inv.idx_eq, inv.in_acct, ?_, inv.links_wf, inv.oi_wf, ?_⟩
  · intro i hi p hp
    have := inv.out_acct i hi p hp
    rw [refs_append, refs_nil]
    omega
  · intro e he
    rw [List.append_nil] at he
    exact inv.ooc_wf e he

theorem LoopInv_final (filters : List FilterContext) (links : List FilterLink)
    (curr oi oo : List FilterInOut) (inv : LoopInv filters links curr oi oo) :
    PadAccounted filters links oi (oo ++ curr) := by
  intro i hi
  refine ⟨inv.idx_eq i hi, fun p hp => inv.in_acct i hi p hp, fun p hp => ?_⟩
  have := inv.out_acct i hi p hp
  rw [refs_append]
  omega

theorem LoopInv_init : LoopInv [] [] [] [] [] := by
  refine ⟨?_, ?_, ?_, ?_, ?_, ?_⟩
  · intro i hi; simp at hi
  · intro i hi; simp at hi
  · intro i hi; simp at hi
  · intro l hl; simp at hl
  · intro e he; simp at he
  · intro e he; simp at he

theorem parse_loop_core_acct (reg : Registry) (graph : FilterGraphState) (fuel : Nat) :
    ∀ index filters links curr oi oo buf fils lnks oiF ooF,
    parse_loop_core reg graph fuel index filters links curr oi oo buf =
      .ok (fils, lnks, oiF, ooF) →
    index = filters.length →
    LoopInv filters links curr oi oo →
    PadAccounted fils lnks oiF ooF := by
  induction fuel with
  | zero => intro index filters links curr oi oo buf fils lnks oiF ooF h _ _; cases h
  | succ n ih =>
    intro index filters links curr oi oo buf fils lnks oiF ooF h hidx inv
    subst hidx
    rw [parse_loop_core] at h
    split at h
    · cases h
    next curr1 oo1 buf1 hpi =>
      split at h
      · cases h
      next filter buf2 hpf =>
        split at h
        · cases h
        next links1 curr2 oi1 hlk =>
          split at h
          · cases h
          next links2 curr3 oi2 oo2 buf3 hpo =>
            have hfidx : filter.index = filters.length :=
              parse_filter_index _ _ _ _ _ _ hpf
            have inv1 : LoopInv (filters ++ [filter]) links2 curr3 oi2 oo2 :=
              iteration_preserves filters links curr oi oo inv _ _ _ _ hpi
                filter hfidx _ _ _ hlk _ _ _ _ _ _ hpo
            split at h
            next c hpk =>
              split at h
              · exact ih _ _ _ _ _ _ _ _ _ _ _ h (by simp) inv1
              split at h
              · exact ih _ _ _ _ _ _ _ _ _ _ _ h (by simp)
                  (LoopInv_flush _ _ _ _ _ inv1)
              · cases h
            next hpk =>
              cases h
              exact LoopInv_final _ _ _ _ _ inv1

theorem finalize_ok (filters : List FilterContext) (links : List FilterLink)
    (oi oo : List FilterInOut) (r : ParsedGraph)
    (h : finalize filters links oi oo = .ok r) :
    r = { filters := filters, links := links, open_inputs := oi, open_outputs := oo } := by
  unfold finalize at h
  split at h
  · cases h
  split at h
  · cases h
  split at h
  · cases h
  split at h
  · cases h
  split at h
  · cases h
  cases h
  rfl

/-- Entries appended to the open-outputs pool by parse_outputs always carry
a label (the popped current pad gets `name := some label` before the push). -/
theorem parse_outputs_core_oo_labelled (fuel : Nat) :
    ∀ idx links curr oi oo buf links1 curr1 oi1 oo1 buf1,
    parse_outputs_core fuel idx links curr oi oo buf =
      .ok (links1, curr1, oi1, oo1, buf1) →
    ∀ e ∈ oo1, e ∈ oo ∨ e.name ≠ none := by
  induction fuel with
  | zero => intro _ _ _ _ _ _ _ _ _ _ _ h; cases h
  | succ n ih =>
    intro idx links curr oi oo buf links1 curr1 oi1 oo1 buf1 h
    rw [parse_outputs_core] at h
    split at h
    · cases h
      exact fun e he => Or.inl he
    case isFalse hpk =>
      split at h
      · cases h
      next nm hpu =>
        split at h
        · cases h
        next input curr2 =>
          split at h
          next m oi2 hrm =>
            split at h
            · cases h
            next j hctx =>
              exact ih _ _ _ _ _ _ _ _ _ _ _ h
          next oi2 hrm =>
            intro e he
            rcases ih _ _ _ _ _ _ _ _ _ _ _ h e he with hx | hx
            · rcases List.mem_append.mp hx with hy | hy
              · exact Or.inl hy
              · simp only [List.mem_singleton] at hy
                subst hy
                exact Or.inr (by simp)
            · exact Or.inr hx

/-! ## Claim theorems -/

/-- C1: Pad-count accounting.  For every registry and input string on which
avfilter_graph_parse2 succeeds, every filter instance of the result (the
filter at position i carries index i) has each of its input pads
0..nb_inputs referenced exactly once across the link list (to-side) plus the
open-inputs list, and each of its output pads 0..nb_outputs referenced
exactly once across the link list (from-side) plus the open-outputs list: no
pad is both linked and open, and no pad is omitted. -/
theorem c1_pad_accounting (reg : Registry) (s : List Char) (r : ParsedGraph)
    (h : avfilter_graph_parse2 reg s = .ok r) :
    ∀ i, i < r.filters.length →
      (fcAt r.filters i).index = i ∧
      (∀ p, p < (fcAt r.filters i).nb_inputs →
        linksTo r.links i p + refs r.open_inputs i p = 1) ∧
      (∀ p, p < (fcAt r.filters i).nb_outputs →
        linksFrom r.links i p + refs r.open_outputs i p = 1) := by
  unfold avfilter_graph_parse2 at h
  simp only [] at h
  split at h
  · cases h
  next graph buf1 hsws =>
    split at h
    · cases h
    · cases h
    · cases h
    next fs links oi oo hloop =>
      have hacc := parse_loop_core_acct reg graph (buf1.length + 1) 0 [] [] [] [] []
        buf1 fs links oi oo hloop rfl LoopInv_init
      have hr := finalize_ok fs links oi oo r h
      subst hr
      exact hacc

/-- Witness for C1: the accounting equation instantiated at the parse of
"null" with regNull, filter 0, input and output pad 0. -/
theorem c1_pad_accounting_witness :
    (fcAt rNull.filters 0).index = 0 ∧
    linksTo rNull.links 0 0 + refs rNull.open_inputs 0 0 = 1 ∧
    linksFrom rNull.links 0 0 + refs rNull.open_outputs 0 0 = 1 :=
  ⟨(c1_pad_accounting regNull (("null").data) rNull (by decide) 0 (by decide)).1,
   (c1_pad_accounting regNull (("null").data) rNull (by decide) 0 (by decide)).2.1 0 (by decide),
   (c1_pad_accounting regNull (("null").data) rNull (by decide) 0 (by decide)).2.2 0 (by decide)⟩

/-- C2: Cross-chain label resolution.  With the registry reporting scale as
1-in/1-out and overlay as 2-in/1-out, parsing the two-chain description
succeeds with exactly two filter instances (scale index 0, overlay index 1),
exactly one link from scale output pad 0 to overlay input pad 0 (resolved
via label a), open inputs for 0:v and 1:v, one open output labelled out, and
label a in neither final open list. -/
theorem c2_cross_chain_resolution :
    avfilter_graph_parse2 regC2 (("[0:v]scale=640:480[a];[a][1:v]overlay=0:0[out]").data) =
      .ok { filters := [⟨0, ("scale").data, ("Parsed_scale_0").data, ("640:480").data, 1, 1⟩,
                        ⟨1, ("overlay").data, ("Parsed_overlay_1").data, ("0:0").data, 2, 1⟩],
            links := [⟨0, 0, 1, 0⟩],
            open_inputs := [⟨some (("0:v").data), 0, some 0⟩,
                            ⟨some (("1:v").data), 1, some 1⟩],
            open_outputs := [⟨some (("out").data), 0, some 1⟩] } ∧
    (([⟨some (("0:v").data), 0, some 0⟩, ⟨some (("1:v").data), 1, some 1⟩,
       ⟨some (("out").data), 0, some 1⟩] : List FilterInOut).all
      (fun e => !(e.name == some (("a").data)))) = true := by
  constructor
  · decide
  · decide

/-- C3 (code bug): the unterminated sws_flags directive.  parse_sws_flags
does return the UnterminatedDirective error, but avfilter_graph_parse2 calls
.unwrap() on that result and aborts (panics) instead of returning the error
value to its caller. -/
theorem c3_unterminated_directive_panics :
    parse_sws_flags { scale_sws_opts := none } (("sws_flags=foo").data) =
      .error (.err .unterminatedDirective) ∧
    avfilter_graph_parse2 regScale (("sws_flags=foo").data) = .panic .swsUnwrap := by
  constructor
  · rfl
  · decide

/-- C4 (code bug): a registry-rejected argument string does not make
create_filter fail.  With a registry that knows "null" but rejects every
argument string (avfilter_init_str < 0), create_filter logs and still
returns a FilterContext, and the whole parse of "null=x" succeeds. -/
theorem c4_filter_init_error_not_propagated :
    regInitFail.init_ok (("null").data) (("x").data) = false ∧
    create_filter regInitFail { scale_sws_opts := none } (("null").data) (("x").data) 0 =
      some ⟨0, ("null").data, ("Parsed_null_0").data, ("x").data, 1, 1⟩ ∧
    avfilter_graph_parse2 regInitFail (("null=x").data) =
      .ok { filters := [⟨0, ("null").data, ("Parsed_null_0").data, ("x").data, 1, 1⟩],
            links := [], open_inputs := [⟨none, 0, some 0⟩],
            open_outputs := [⟨none, 0, some 0⟩] } := by
  refine ⟨rfl, by decide, by decide⟩

/-- C5 counterexample: parsing "split" (1 input, 2 outputs) succeeds, and
the final open-inputs pool and open-outputs pool both contain entries whose
label is None, contradicting the claimed labelling invariant. -/
theorem c5_counterexample :
    avfilter_graph_parse2 regSplit (("split").data) = .ok splitRes ∧
    splitRes.open_inputs.all (fun e => e.name.isSome) = false ∧
    splitRes.open_outputs.all (fun e => e.name.isSome) = false := by
  refine ⟨by decide, by decide, by decide⟩

/-- C5 (amended): only the entries that parse_outputs itself appends to the
open-outputs pool are guaranteed a non-None label; the open-inputs pool
(missing-input references) and chain-boundary flushes may be unlabelled. -/
theorem c5_parse_outputs_adds_labelled (idx : Nat) (links : List FilterLink)
    (curr oi oo : List FilterInOut) (buf : List Char)
    (links1 : List FilterLink) (curr1 oi1 oo1 : List FilterInOut) (buf1 : List Char)
    (h : parse_outputs idx links curr oi oo buf = .ok (links1, curr1, oi1, oo1, buf1)) :
    ∀ e ∈ oo1, e ∈ oo ∨ e.name ≠ none :=
  parse_outputs_core_oo_labelled _ _ _ _ _ _ _ _ _ _ _ _ h

/-- Witness for the amended C5: parse_outputs on a single anonymous current
pad and the label z yields an open output that is new and labelled. -/
theorem c5_parse_outputs_adds_labelled_witness :
    (⟨some (("z").data), 0, some 0⟩ : FilterInOut) ∈ ([] : List FilterInOut) ∨
    (⟨some (("z").data), 0, some 0⟩ : FilterInOut).name ≠ none :=
  c5_parse_outputs_adds_labelled 0 [] [⟨none, 0, some 0⟩] [] [] (("[z]").data)
    [] [] [] [⟨some (("z").data), 0, some 0⟩] [] (by rfl)
    ⟨some (("z").data), 0, some 0⟩ (by decide)

/-- C10: the success path is partial.  With a source filter (0 inputs) piped
into a sink filter (0 outputs), chain parsing completes without error, the
open lists come out empty, and avfilter_graph_parse2 aborts on the unguarded
inputs_code_name[0] indexing; with "sink" alone it aborts on
outputs_code_name[0]. -/
theorem c10_empty_open_list_panics :
    avfilter_graph_parse2 regSrcSink (("src,sink").data) = .panic .emptyInputsIndex ∧
    avfilter_graph_parse2 regSrcSink (("sink").data) = .panic .emptyOutputsIndex := by
  constructor
  · decide
  · decide

/-- C8: TooManyInputs.  link_filter_inouts fails with TooManyInputs exactly
when more current-input references are queued than the filter declares input
pads (after consuming one reference per declared pad, any leftover is the
error); end to end, parsing three bracket labels in front of the one-input
setpts filter fails with TooManyInputs. -/
theorem c8_too_many_inputs :
    (∀ (idx : Nat) (links : List FilterLink) (fc : FilterContext)
       (curr oi : List FilterInOut),
      link_filter_inouts idx links fc curr oi = .error (.err .tooManyInputs) ↔
        fc.nb_inputs < curr.length) ∧
    avfilter_graph_parse2 regSetpts (("[a][b][c]setpts").data) = .err .tooManyInputs := by
  constructor
  · intro idx links fc curr oi
    unfold link_filter_inouts
    simp only []
    have hdrop : (link_inputs_loop idx fc.index 0 fc.nb_inputs links curr oi).2.1 =
        curr.drop fc.nb_inputs := lil_curr idx fc.index fc.nb_inputs 0 links curr oi
    split
    case isTrue hne =>
      rw [hdrop] at hne
      constructor
      · intro _
        by_contra hcon
        exact hne (List.drop_eq_nil_iff.mpr (by omega))
      · intro _
        rfl
    case isFalse hne =>
      rw [hdrop] at hne
      have hnil := not_not.mp hne
      have hle := List.drop_eq_nil_iff.mp hnil
      constructor
      · intro hcontra
        cases hcontra
      · intro hlt
        omega
  · decide

/-- Witness for C8: the iff applied at a two-entry queue in front of a
one-input filter. -/
theorem c8_too_many_inputs_witness :
    link_filter_inouts 0 []
      ⟨0, ("setpts").data, ("Parsed_setpts_0").data, [], 1, 1⟩
      [⟨some (("a").data), 0, none⟩, ⟨some (("b").data), 1, none⟩] [] =
      .error (.err .tooManyInputs) :=
  (c8_too_many_inputs.1 0 []
      ⟨0, ("setpts").data, ("Parsed_setpts_0").data, [], 1, 1⟩
      [⟨some (("a").data), 0, none⟩, ⟨some (("b").data), 1, none⟩] []).mpr (by decide)

/-- C6: Scale argument inheritance.  For every registry, graph state with
scale_sws_opts set, and filter spec resolving to filter name "scale" whose
raw args are empty or lack the substring "flags", create_filter succeeds and
the final args are the inherited text when args were empty and otherwise the
original args joined to the inherited text with a colon; concretely, parsing
"sws_flags=+accurate_rnd;scale" yields a scale instance whose args equal
"flags=+accurate_rnd". -/
theorem c6_scale_args_inheritance :
    (∀ (reg : Registry) (graph : FilterGraphState) (name args sws : List Char)
       (index : Nat),
      graph.scale_sws_opts = some sws →
      (filter_names name index).1 = scaleStr →
      reg.known scaleStr = true →
      (args = [] ∨ contains_sub flagsStr args = false) →
      ∃ fc, create_filter reg graph name args index = some fc ∧
        fc.args = (if args = [] then sws else args ++ ':' :: sws)) ∧
    avfilter_graph_parse2 regScale (("sws_flags=+accurate_rnd;scale").data) =
      .ok { filters := [⟨0, ("scale").data, ("Parsed_scale_0").data,
              ("flags=+accurate_rnd").data, 1, 1⟩],
            links := [], open_inputs := [⟨none, 0, some 0⟩],
            open_outputs := [⟨none, 0, some 0⟩] } := by
  constructor
  · intro reg graph name args sws index hsws hfn hkn hargs
    refine ⟨{ index := index, filt_name := scaleStr,
              inst_name := (filter_names name index).2,
              args := if args = [] then sws else args ++ ':' :: sws,
              nb_inputs := (reg.pad_counts scaleStr
                (if args = [] then sws else args ++ ':' :: sws)).1,
              nb_outputs := (reg.pad_counts scaleStr
                (if args = [] then sws else args ++ ':' :: sws)).2 }, ?_, rfl⟩
    unfold create_filter
    simp only []
    rw [hfn, hsws]
    rw [if_neg (by rw [hkn]; simp)]
    rw [if_pos ⟨rfl, hargs, by simp⟩]
  · decide

/-- Witness for C6: inheritance applied at a concrete registry, graph state
and argument string. -/
theorem c6_scale_args_inheritance_witness :
    ∃ fc, create_filter regScale { scale_sws_opts := some (("f").data) }
        (("scale").data) (("w=1").data) 7 = some fc ∧
      fc.args = (if (("w=1").data : List Char) = [] then (("f").data)
        else (("w=1").data) ++ ':' :: (("f").data)) :=
  c6_scale_args_inheritance.1 regScale { scale_sws_opts := some (("f").data) }
    (("scale").data) (("w=1").data) (("f").data) 7 rfl (by decide) (by decide)
    (Or.inr (by decide))

/-- C7 counterexample: for the input "sws_flags=emm;" the text T strictly
between "sws_flags=" and the semicolon is "emm", but parse_sws_flags stores
"flags=emm" (the skip is 4 bytes, keeping the flags= part), so the stored
text differs from T. -/
theorem c7_counterexample :
    parse_sws_flags { scale_sws_opts := none } (("sws_flags=emm;").data) =
      .ok ({ scale_sws_opts := some (("flags=emm").data) }, []) ∧
    (("flags=emm").data : List Char) ≠ (("emm").data) := by
  constructor
  · rfl
  · decide

/-- C7 (amended): for every input "sws_flags=" ++ T ++ ";" ++ rest with no
semicolon inside T, parse_sws_flags stores "flags=" ++ T — the raw directive
text from byte offset 4 (retaining the "flags=" tail of the keyword) up to
the terminating semicolon — and leaves the cursor after the semicolon. -/
theorem c7_directive_retains_flags_prefix (t rest : List Char)
    (h : (';' : Char) ∉ t) :
    parse_sws_flags { scale_sws_opts := none }
        ((("sws_flags=").data) ++ t ++ ';' :: rest) =
      .ok ({ scale_sws_opts := some ((("flags=").data) ++ t) }, rest) := by
  rw [List.append_assoc]
  unfold parse_sws_flags
  have hpk : peek_len 10 ((("sws_flags=").data) ++ (t ++ ';' :: rest)) = some swsKeyword := by
    unfold peek_len
    rw [if_pos (by simp)]
    rw [List.take_left' (by decide)]
    rfl
  rw [if_neg (by rw [hpk]; simp)]

  have hdrop4 : ((("sws_flags=").data) ++ (t ++ ';' :: rest)).drop 4 =
      (("flags=").data) ++ (t ++ ';' :: rest) := by
    rw [List.drop_append_of_le_length (by decide)]
    rfl
  rw [hdrop4, ← List.append_assoc]
  have hfind : peek_until (fun c => c == ';') (((("flags=").data) ++ t) ++ ';' :: rest) =
      some ((("flags=").data) ++ t) := by
    apply peek_until_found
    · intro x hx
      rcases List.mem_append.mp hx with hy | hy
      · have hfl : ∀ y ∈ (("flags=").data), (y == ';') = false := by decide
        exact hfl x hy
      · exact beq_eq_false_iff_ne.mpr (fun heq => h (heq ▸ hy))
    · rfl
  rw [hfind]
  show Except.ok ((⟨some ((("flags=").data) ++ t)⟩ : FilterGraphState),
      List.drop (((("flags=").data) ++ t).length + 1)
        (((("flags=").data) ++ t) ++ ';' :: rest)) =
    Except.ok ((⟨some ((("flags=").data) ++ t)⟩ : FilterGraphState), rest)
  rw [drop_append_cons]

/-- Witness for the amended C7 at T = "abc", rest = "xy". -/
theorem c7_directive_retains_flags_prefix_witness :
    parse_sws_flags { scale_sws_opts := none }
        ((("sws_flags=").data) ++ (("abc").data) ++ ';' :: (("xy").data)) =
      .ok ({ scale_sws_opts := some ((("flags=").data) ++ (("abc").data)) },
        (("xy").data)) :=
  c7_directive_retains_flags_prefix (("abc").data) (("xy").data) (by decide)

/-- C9: TooFewOutputs.  For a trailing bracket label after a filter spec:
when no current-output pad remains the parse fails with TooFewOutputs; when
pads remain, the head of the current-output queue is the pad attached to the
label (shown by the one-step unfolding in the no-open-input-match case);
end to end, "[x]null[a][b]" fails with TooFewOutputs at the second label. -/
theorem c9_too_few_outputs :
    (∀ (idx : Nat) (links : List FilterLink) (oi oo : List FilterInOut)
       (nm rest : List Char), (']' : Char) ∉ nm →
      parse_outputs idx links [] oi oo ('[' :: (nm ++ ']' :: rest)) =
        .error (.err .tooFewOutputs)) ∧
    (∀ (fuel idx : Nat) (links : List FilterLink) (e : FilterInOut)
       (cs oi oo : List FilterInOut) (nm rest : List Char), (']' : Char) ∉ nm →
      (∀ m ∈ oi, m.name ≠ some nm) →
      parse_outputs_core (fuel + 1) idx links (e :: cs) oi oo
          ('[' :: (nm ++ ']' :: rest)) =
        parse_outputs_core fuel idx links cs oi
          (oo ++ [{ e with name := some nm }]) (skip_ws rest)) ∧
    avfilter_graph_parse2 regNull (("[x]null[a][b]").data) = .err .tooFewOutputs := by
  have hfind : ∀ (nm rest : List Char), (']' : Char) ∉ nm →
      peek_until (fun c => c == ']') (nm ++ ']' :: rest) = some nm := by
    intro nm rest h
    apply peek_until_found
    · intro x hx
      exact beq_eq_false_iff_ne.mpr (fun heq => h (heq ▸ hx))
    · rfl
  refine ⟨?_, ?_, by decide⟩
  · intro idx links oi oo nm rest h
    unfold parse_outputs
    rw [parse_outputs_core]
    rw [if_neg (by simp [peek])]
    simp only [List.drop_succ_cons, List.drop_zero]
    rw [hfind nm rest h]
  · intro fuel idx links e cs oi oo nm rest h hm
    rw [parse_outputs_core]
    rw [if_neg (by simp [peek])]
    simp only [List.drop_succ_cons, List.drop_zero]
    rw [hfind nm rest h]
    simp only [removeFirstNamed_none_of_absent nm oi hm, drop_append_cons]

/-- Witness for C9: the empty current-output queue case at the label a. -/
theorem c9_too_few_outputs_witness :
    parse_outputs 0 [] [] [] [] ('[' :: ((("a").data) ++ ']' :: [])) =
      .error (.err .tooFewOutputs) :=
  c9_too_few_outputs.1 0 [] [] [] (("a").data) [] (by decide)
